import Mathlib

/-!
Shallow embedding of the damiao_motor_tui wire-protocol codec, watchdog,
discovery probe and choreography start-up logic, with theorems settling the
frozen specification claims.

Python `float` arithmetic is embedded as exact rational arithmetic (`ℚ`);
non-finite floats (NaN, ±inf), which the codec treats specially, are
embedded by the inductive `PFloat`.  Python `int` is `ℤ`/`ℕ`; Python's
`x & (2^k - 1)` on an arbitrary int equals `x mod 2^k` (two's-complement
semantics), which is how the one mask applied to a possibly-`Int` value is
written.  Python's `round` is round-half-to-even, embedded by `pyRound`.
-/

namespace DmTui

/-- Python's `round` on a rational value: round half to even. -/
def pyRound (q : ℚ) : ℤ :=
  if q - (⌊q⌋ : ℚ) < 1/2 then ⌊q⌋
  else if 1/2 < q - (⌊q⌋ : ℚ) then ⌊q⌋ + 1
  else if 2 ∣ ⌊q⌋ then ⌊q⌋ else ⌊q⌋ + 1

/-- A Python float: either an exact (finite) rational value, or one of the
non-finite values NaN, +inf, -inf. -/
inductive PFloat where
  | finite (val : ℚ)
  | nan
  | inf
  | ninf
deriving DecidableEq, Repr, Inhabited

/-- Python's `math.isfinite`. -/
def PFloat.isfinite : PFloat → Bool
  | .finite _ => true
  | _ => false

/- ### protocol.py constants -/

/-- `ENABLE_FRAME = bytes([0xFF] * 7 + [0xFC])` -/
def ENABLE_FRAME : List ℕ := [0xFF, 0xFF, 0xFF, 0xFF, 0xFF, 0xFF, 0xFF, 0xFC]

/-- `DISABLE_FRAME = bytes([0xFF] * 7 + [0xFD])` -/
def DISABLE_FRAME : List ℕ := [0xFF, 0xFF, 0xFF, 0xFF, 0xFF, 0xFF, 0xFF, 0xFD]

/-- `ZERO_FRAME = bytes([0xFF] * 7 + [0xFE])` -/
def ZERO_FRAME : List ℕ := [0xFF, 0xFF, 0xFF, 0xFF, 0xFF, 0xFF, 0xFF, 0xFE]

/-- `MANAGEMENT_ARBITRATION_ID = 0x7FF` -/
def MANAGEMENT_ARBITRATION_ID : ℕ := 0x7FF

/- ### IEEE-754 binary32 packing (`struct.pack("<f", x)`)

CPython's `struct.pack("<f", x)` converts the double `x` to IEEE-754 single
precision with round-half-to-even, raising `OverflowError` only when a
*finite* value rounds to magnitude `≥ 2^128`; NaN and the infinities have
dedicated bit patterns and never raise.  `f32bits` computes the 32-bit
pattern of a finite rational. -/

/-- Bit pattern of the IEEE-754 binary32 nearest (round-half-even) encoding
of a finite rational, or an overflow error as raised by `struct.pack`. -/
def f32bits (q : ℚ) : Except String ℕ :=
  if q = 0 then .ok 0
  else
    let s : ℕ := if q < 0 then 1 else 0
    let a := |q|
    let e : ℤ := Int.log 2 a
    if e < -126 then
      -- subnormal range: unit in the last place is 2^(-149)
      let m := pyRound (a * (2 : ℚ) ^ (149 : ℤ))
      .ok ((s <<< 31) ||| m.toNat)
    else
      -- normal range: significand scaled to [2^23, 2^24]
      let m := pyRound (a * (2 : ℚ) ^ ((23 : ℤ) - e))
      let bitsVal : ℤ := (e + 126) * 2 ^ 23 + m
      if 255 * 2 ^ 23 ≤ bitsVal then .error "float too large to pack with f format"
      else .ok ((s <<< 31) ||| bitsVal.toNat)

/-- `struct.pack("<f", value)`: 4 little-endian bytes.  NaN packs to
`0x7FC00000`, +inf to `0x7F800000`, -inf to `0xFF800000`. -/
def pack_f32 (value : PFloat) : Except String (List ℕ) :=
  match value with
  | .nan => .ok [0x00, 0x00, 0xC0, 0x7F]
  | .inf => .ok [0x00, 0x00, 0x80, 0x7F]
  | .ninf => .ok [0x00, 0x00, 0x80, 0xFF]
  | .finite q => do
      let bits ← f32bits q
      .ok [bits &&& 0xFF, (bits >>> 8) &&& 0xFF, (bits >>> 16) &&& 0xFF, (bits >>> 24) &&& 0xFF]

/- ### protocol.py frame builders -/

/-- `frame_disable(esc_id)` returns `(esc_id, DISABLE_FRAME)`. -/
def frame_disable (esc_id : ℕ) : ℕ × List ℕ := (esc_id, DISABLE_FRAME)

/-- `frame_speed(esc_id, velocity_rad_s)`: payload is
`pack("<f", velocity_rad_s) + bytes(4)`, address `0x200 + esc_id`.  The
`Except` layer carries any exception `pack` raises. -/
def frame_speed (esc_id : ℕ) (velocity_rad_s : PFloat) : Except String (ℕ × List ℕ) := do
  let head ← pack_f32 velocity_rad_s
  .ok (0x200 + esc_id, head ++ [0, 0, 0, 0])

/- ### protocol.py fixed-point conversion -/

/-- `_float_to_uint(value, minimum, maximum, bits)`:
validates `maximum > minimum` and `isfinite(value)`, clamps into
`[minimum, maximum]`, maps linearly onto `[0, 2^bits - 1]`, rounds
(half-to-even, as Python `round`), and masks with `scale = (1 << bits) - 1`;
masking an int with `2^bits - 1` is reduction mod `2^bits`. -/
def float_to_uint (value : PFloat) (minimum maximum : ℚ) (bits : ℕ) : Except String ℕ :=
  if maximum ≤ minimum then .error "maximum must be greater than minimum"
  else
    match value with
    | .finite v =>
      let span := maximum - minimum
      let scale : ℕ := (1 <<< bits) - 1
      let clamped := max (min v maximum) minimum
      let normalized := (clamped - minimum) / span
      .ok ((pyRound (normalized * (scale : ℚ))) % ((2 : ℤ) ^ bits)).toNat
    | _ => .error "value must be finite"

/-- `_uint_to_float(value, minimum, maximum, bits)`: masks the value with
`scale = (1 << bits) - 1` and maps `[0, scale]` linearly onto
`[minimum, maximum]`. -/
def uint_to_float (value : ℕ) (minimum maximum : ℚ) (bits : ℕ) : Except String ℚ :=
  if maximum ≤ minimum then .error "maximum must be greater than minimum"
  else
    let scale : ℕ := (1 <<< bits) - 1
    let v := value &&& scale
    .ok ((v : ℚ) / (scale : ℚ) * (maximum - minimum) + minimum)

/-- `pack_mit_payload`: clamps and fixed-point-encodes the five MIT-mode
fields and bit-packs them into 8 bytes. -/
def pack_mit_payload (position_rad velocity_rad_s torque_nm kp kd : PFloat)
    (position_limit velocity_limit torque_limit kp_limit kd_limit : ℚ) :
    Except String (List ℕ) := do
  let p_min := -|position_limit|
  let p_max := |position_limit|
  let v_min := -|velocity_limit|
  let v_max := |velocity_limit|
  let t_min := -|torque_limit|
  let t_max := |torque_limit|
  let kp_min : ℚ := 0
  let kp_max := |kp_limit|
  let kd_min : ℚ := 0
  let kd_max := |kd_limit|
  let p_int ← float_to_uint position_rad p_min p_max 16
  let v_int ← float_to_uint velocity_rad_s v_min v_max 12
  let kp_int ← float_to_uint kp kp_min kp_max 12
  let kd_int ← float_to_uint kd kd_min kd_max 12
  let t_int ← float_to_uint torque_nm t_min t_max 12
  .ok [(p_int >>> 8) &&& 0xFF,
       p_int &&& 0xFF,
       (v_int >>> 4) &&& 0xFF,
       ((v_int &&& 0x0F) <<< 4) ||| ((kp_int >>> 8) &&& 0x0F),
       kp_int &&& 0xFF,
       (kd_int >>> 4) &&& 0xFF,
       ((kd_int &&& 0x0F) <<< 4) ||| ((t_int >>> 8) &&& 0x0F),
       t_int &&& 0xFF]

/-- `decode_mit(payload, limits)`: requires an 8-byte payload, extracts the
five bit-packed integers and maps each back through `_uint_to_float`.
Returns `(position, velocity, torque, kp, kd)`. -/
def decode_mit (payload : List ℕ)
    (position_limit velocity_limit torque_limit kp_limit kd_limit : ℚ) :
    Except String (ℚ × ℚ × ℚ × ℚ × ℚ) :=
  match payload with
  | [b0, b1, b2, b3, b4, b5, b6, b7] => do
    let p_int := (b0 <<< 8) ||| b1
    let v_int := (b2 <<< 4) ||| (b3 >>> 4)
    let kp_int := ((b3 &&& 0x0F) <<< 8) ||| b4
    let kd_int := (b5 <<< 4) ||| (b6 >>> 4)
    let t_int := ((b6 &&& 0x0F) <<< 8) ||| b7
    let position ← uint_to_float p_int (-|position_limit|) |position_limit| 16
    let velocity ← uint_to_float v_int (-|velocity_limit|) |velocity_limit| 12
    let kp' ← uint_to_float kp_int 0 |kp_limit| 12
    let kd' ← uint_to_float kd_int 0 |kd_limit| 12
    let torque ← uint_to_float t_int (-|torque_limit|) |torque_limit| 12
    .ok (position, velocity, torque, kp', kd')
  | _ => .error "MIT command payload must be 8 bytes"

/- ### protocol.py feedback decoding -/

/-- Decoded feedback frame values (`protocol.Feedback`). -/
structure Feedback where
  esc_id : ℕ
  status : ℕ
  position_raw : ℤ
  velocity_raw : ℤ
  torque_raw : ℤ
  temp_mos : ℕ
  temp_rotor : ℕ
deriving DecidableEq, Repr, Inhabited

/-- `_to_signed(value, bits) = (value ^ sign_bit) - sign_bit` with
`sign_bit = 1 << (bits - 1)`; the XOR happens on the nonnegative masked
value, the subtraction in ℤ. -/
def to_signed (value : ℕ) (bits : ℕ) : ℤ :=
  let sign_bit : ℕ := 1 <<< (bits - 1)
  ((value ^^^ sign_bit : ℕ) : ℤ) - (sign_bit : ℤ)

/-- `decode_feedback(data)`: requires exactly 8 bytes, else the
`"Feedback frame must be 8 bytes"` `ValueError`. -/
def decode_feedback (data : List ℕ) : Except String Feedback :=
  match data with
  | [b0, b1, b2, b3, b4, b5, b6, b7] =>
    .ok { esc_id := b0 &&& 0x0F,
          status := b0 >>> 4,
          position_raw := to_signed ((b1 <<< 8) ||| b2) 16,
          velocity_raw := to_signed (((b3 <<< 4) ||| (b4 >>> 4)) &&& 0xFFF) 12,
          torque_raw := to_signed (((b4 &&& 0x0F) <<< 8) ||| b5) 12,
          temp_mos := b6,
          temp_rotor := b7 }
  | _ => .error "Feedback frame must be 8 bytes"

/- ### protocol.py filters -/

/-- A kernel filter definition `{"can_id": …, "can_mask": …, "extended": …}`. -/
structure FilterRule where
  can_id : ℕ
  can_mask : ℕ
  extended : ℕ
deriving DecidableEq, Repr

/-- The exact-match filter built for one MST ID. -/
def exactRule (mst_id : ℕ) : FilterRule := ⟨mst_id, 0x7FF, 0⟩

/-- The filter for the fixed management arbitration ID. -/
def managementRule : FilterRule := ⟨MANAGEMENT_ARBITRATION_ID, 0x7FF, 0⟩

/-- `build_filters(mst_ids)`: one exact filter per first occurrence of each
MST ID (a `seen` set skips duplicates), then the management filter is
appended, after removing any filter equal to it that the loop produced. -/
def build_filters (mst_ids : List ℕ) : List FilterRule :=
  let fs := mst_ids.foldl
    (fun acc mst_id =>
      if mst_id ∈ acc.2 then acc
      else (acc.1 ++ [exactRule mst_id], acc.2 ++ [mst_id]))
    (([] : List FilterRule), ([] : List ℕ))
  if MANAGEMENT_ARBITRATION_ID ∈ fs.2 then
    (fs.1.filter (fun fe =>
      !(fe.can_id == MANAGEMENT_ARBITRATION_ID && fe.can_mask == 0x7FF && fe.extended == 0)))
      ++ [managementRule]
  else
    fs.1 ++ [managementRule]

/-- First occurrences of the ids in a list that are not already in `seen` —
the order in which `build_filters`' loop emits exact-match filters. -/
def firstNew (seen : List ℕ) : List ℕ → List ℕ
  | [] => []
  | x :: xs => if x ∈ seen then firstNew seen xs else x :: firstNew (seen ++ [x]) xs

/- ### app.py watchdog (`DmTuiApp._watchdog_check`)

The app state relevant to one watchdog tick: the `_motors` dict (esc id to
`MotorInfo.last_seen`), the `_telemetry` dict (esc id to sample timestamp),
the `_watchdog_tripped` set and the `_watchdog_last_disable` dict.  Dicts
are association lists with unique keys; monotonic timestamps are rationals.
The `disable(bus, esc_id)` transport call is abstracted by an oracle
`sendFails` telling which sends raise `BusManagerError` on this tick.
Python set iteration order is unspecified, so the esc ids of
`set(self._motors) | set(self._telemetry)` are enumerated as the
deduplicated concatenation of the two key lists; no per-motor result
depends on that order. -/

structure WState where
  motors : List (ℕ × ℚ)
  telemetry : List (ℕ × ℚ)
  tripped : List ℕ
  lastDisable : List (ℕ × ℚ)
deriving DecidableEq, Repr

/-- Dict write `m[k] = v` on an association list, by shadowing: `lookup`
(the only observation made of these dicts) sees the new binding. -/
def alistSet (l : List (ℕ × ℚ)) (k : ℕ) (v : ℚ) : List (ℕ × ℚ) :=
  (k, v) :: l.filter (fun p => !(p.1 == k))

/-- The `last_seen` value `_watchdog_check` derives for one esc id: the
later of the discovery `MotorInfo.last_seen` and the telemetry timestamp,
`none` when the motor appears in neither dict. -/
def lastSeen (motors telemetry : List (ℕ × ℚ)) (esc : ℕ) : Option ℚ :=
  match List.lookup esc motors, List.lookup esc telemetry with
  | none, none => none
  | some ls, none => some ls
  | none, some ts => some ts
  | some ls, some ts => some (max ls ts)

/-- The cooldown check of `_watchdog_check`: a stale motor is put on the
`stale` list unless a prior disable was recorded less than `cooldown` ago
(`last_disable is not None and (now - last_disable) < cooldown` ⇒ skip). -/
def cooldownClear (now cooldown : ℚ) (lastDisable : List (ℕ × ℚ)) (esc : ℕ) : Bool :=
  match List.lookup esc lastDisable with
  | some ld => !(now - ld < cooldown)
  | none => true

/-- First loop of `_watchdog_check` over the esc ids: updates the tripped
set and collects the `stale` list of `(esc_id, age)` pairs that survive the
cooldown check, in iteration order. -/
def watchdogScan (now threshold cooldown : ℚ) (motors telemetry lastDisable : List (ℕ × ℚ)) :
    List ℕ → List ℕ → List ℕ × List (ℕ × ℚ)
  | [], tripped => (tripped, [])
  | esc :: rest, tripped =>
    match lastSeen motors telemetry esc with
    | none => watchdogScan now threshold cooldown motors telemetry lastDisable rest tripped
    | some ls =>
      let age := now - ls
      if age < threshold then
        watchdogScan now threshold cooldown motors telemetry lastDisable rest (tripped.erase esc)
      else
        let tripped' := if esc ∈ tripped then tripped else tripped ++ [esc]
        let r := watchdogScan now threshold cooldown motors telemetry lastDisable rest tripped'
        (r.1, if cooldownClear now cooldown lastDisable esc then (esc, age) :: r.2 else r.2)

/-- One `_watchdog_check` tick.  Returns the new state, the list of esc ids
for which a disable frame was attempted (in order), and the sublist whose
`disable` call raised (each is logged; note the source then unconditionally
records `last_disable[esc_id] = now`, success or not). -/
def watchdog_check (now threshold cooldown : ℚ) (st : WState) (sendFails : ℕ → Bool) :
    WState × List ℕ × List ℕ :=
  let esc_ids := (st.motors.map Prod.fst ++ st.telemetry.map Prod.fst).dedup
  let scanned := watchdogScan now threshold cooldown st.motors st.telemetry st.lastDisable
    esc_ids st.tripped
  let attempts := scanned.2.map Prod.fst
  let failures := attempts.filter (fun e => sendFails e)
  let lastDisable' := attempts.foldl (fun m e => alistSet m e now) st.lastDisable
  ({ st with tripped := scanned.1, lastDisable := lastDisable' }, attempts, failures)

/- ### demos.py `sine_orchestra` start-up and app.py `_start_demo`

Only the periodic-handle lifecycle is modelled: `bus.send_periodic` either
returns a task (recorded by its arbitration id `0x200 + esc`) or raises
(`startFails esc = true`).  The initial payload (a sine velocity) does not
affect which tasks exist or get stopped. -/

/-- The task-creation loop of `sine_orchestra`: returns the arbitration ids
of the periodic tasks created on the bus, and the error message when some
`send_periodic` call raised.  On a raise, the loop exits at once, leaving
every previously created task running. -/
def sineOrchestraTasks (escs : List ℕ) (startFails : ℕ → Bool) : List ℕ × Option String :=
  match escs with
  | [] => ([], none)
  | esc :: rest =>
    if startFails esc then ([], some "Failed to start periodic task")
    else
      let r := sineOrchestraTasks rest startFails
      ((0x200 + esc) :: r.1, r.2)

/-- `sine_orchestra(bus, esc_ids, …)`: raises `ValueError` on an empty id
list, else creates one periodic task per esc id.  Result triple: the tasks
created on the bus, the stop calls issued before control returns, and the
function result (the handle's task list, or the propagated error).  No
`except`/`finally` surrounds the creation loop, so a raise propagates with
no stop call issued. -/
def sine_orchestra (escs : List ℕ) (startFails : ℕ → Bool) :
    List ℕ × List ℕ × Except String (List ℕ) :=
  if escs.isEmpty then ([], [], .error "sine_orchestra requires at least one ESC ID")
  else
    let r := sineOrchestraTasks escs startFails
    match r.2 with
    | some msg => (r.1, [], .error msg)
    | none => (r.1, [], .ok r.1)

/-- `DmTuiApp._start_demo`: calls `sine_orchestra`; on `BusManagerError` or
`ValueError` it logs "Failed to start demo" and returns.  Result: tasks
created on the bus, stop calls issued, whether a demo became active, and
whether any fallback resend loop was started (no such path exists in the
source). -/
def start_demo (escs : List ℕ) (startFails : ℕ → Bool) :
    List ℕ × List ℕ × Bool × Bool :=
  let r := sine_orchestra escs startFails
  match r.2.2 with
  | .ok _ => (r.1, r.2.1, true, false)
  | .error _ => (r.1, r.2.1, false, false)

/- ### discovery.py `active_probe`

A bus message and the observable events of one probe run.  Message arrival
is abstracted by a queue of already-buffered frames; each candidate's
listen window is bounded by a budget of `get_message` calls (the
`probe_duration` deadline), and a window with an empty queue ends (no new
arrivals are modelled).  `skip` records a received frame that was consumed
without being recorded (malformed, or its decoded esc id does not match
the candidate being probed). -/

structure Msg where
  arbitration_id : ℕ
  data : List ℕ
deriving DecidableEq, Repr, Inhabited

inductive ProbeEvent where
  | send (arb : ℕ) (data : List ℕ)
  | skip (m : Msg)
  | record (esc mst : ℕ)
deriving DecidableEq, Repr, Inhabited

/-- The `frame_speed(esc_id, 0.0)` pair sent by the probe; `frame_speed`
cannot raise at velocity `0.0` (see `frame_speed_zero_ok`). -/
def probeZeroFrame (esc_id : ℕ) : ℕ × List ℕ :=
  match frame_speed esc_id (.finite 0) with
  | .ok p => p
  | .error _ => (0, [])

/-- One candidate's listen window: consume queued frames until a feedback
frame whose decoded esc id matches (record it and break), or the receive
budget or queue is exhausted.  Returns the events and the remaining queue. -/
def probeListen (esc : ℕ) : ℕ → List Msg → List ProbeEvent × List Msg
  | 0, queue => ([], queue)
  | _ + 1, [] => ([], [])
  | fuel + 1, m :: rest =>
    match decode_feedback m.data with
    | .error _ =>
      let r := probeListen esc fuel rest
      (.skip m :: r.1, r.2)
    | .ok fb =>
      if fb.esc_id = esc then ([.record fb.esc_id m.arbitration_id], rest)
      else
        let r := probeListen esc fuel rest
        (.skip m :: r.1, r.2)

/-- The per-candidate loop of `active_probe`: for each candidate in order,
send the disable frame, send the zero-velocity frame, then listen. -/
def probeCandidates (fuel : ℕ) : List ℕ → List Msg → List ProbeEvent × List Msg
  | [], queue => ([], queue)
  | esc :: rest, queue =>
    let w := probeListen esc fuel queue
    let r := probeCandidates fuel rest w.2
    (.send (frame_disable esc).1 (frame_disable esc).2
      :: .send (probeZeroFrame esc).1 (probeZeroFrame esc).2
      :: (w.1 ++ r.1), r.2)

/-- The final drain loop of `active_probe`: decode whatever remains
buffered, within the overall deadline; an empty queue ends the drain. -/
def probeDrain : ℕ → List Msg → List ProbeEvent
  | 0, _ => []
  | _ + 1, [] => []
  | fuel + 1, m :: rest =>
    match decode_feedback m.data with
    | .error _ => .skip m :: probeDrain fuel rest
    | .ok fb => .record fb.esc_id m.arbitration_id :: probeDrain fuel rest

/-- `active_probe(bus, esc_candidates, probe_duration)` as its event trace:
per-candidate sends and listen windows, then the final drain. -/
def active_probe (candidates : List ℕ) (fuel drainFuel : ℕ) (queue : List Msg) :
    List ProbeEvent :=
  let r := probeCandidates fuel candidates queue
  r.1 ++ probeDrain drainFuel r.2

/-- True for send events. -/
def ProbeEvent.isSend : ProbeEvent → Bool
  | .send _ _ => true
  | _ => false

/-- True for skip events. -/
def ProbeEvent.isSkip : ProbeEvent → Bool
  | .skip _ => true
  | _ => false

/-- The event's send payload, for filtering the sends out of a trace. -/
def ProbeEvent.sendOf : ProbeEvent → Option (ℕ × List ℕ)
  | .send arb data => some (arb, data)
  | _ => none

/-- The ordering property claimed of `active_probe`: every send event in
the trace precedes every skip event. -/
def sendsPrecedeSkips (evs : List ProbeEvent) : Prop :=
  ∀ i < evs.length, ∀ j < evs.length,
    (evs.getD i default).isSend = true → (evs.getD j default).isSkip = true → i < j

instance (evs : List ProbeEvent) : Decidable (sendsPrecedeSkips evs) := by
  unfold sendsPrecedeSkips
  infer_instance

/- ### Helper lemmas: rounding -/

theorem pyRound_abs_sub_le (q : ℚ) : |(pyRound q : ℚ) - q| ≤ 1/2 := by
  have h0 : (⌊q⌋ : ℚ) ≤ q := Int.floor_le q
  have h1 : q < (⌊q⌋ : ℚ) + 1 := Int.lt_floor_add_one q
  unfold pyRound
  split_ifs with hlt hgt hdvd
  · rw [abs_le]; constructor <;> linarith
  · rw [abs_le]; push_cast; constructor <;> linarith
  · have : q - (⌊q⌋ : ℚ) = 1/2 := le_antisymm (not_lt.mp hgt) (not_lt.mp hlt)
    rw [abs_le]; constructor <;> linarith
  · have : q - (⌊q⌋ : ℚ) = 1/2 := le_antisymm (not_lt.mp hgt) (not_lt.mp hlt)
    rw [abs_le]; push_cast; constructor <;> linarith

theorem pyRound_intCast (n : ℤ) : pyRound (n : ℚ) = n := by
  unfold pyRound
  rw [Int.floor_intCast]
  simp

theorem pyRound_nonneg {q : ℚ} (h : 0 ≤ q) : 0 ≤ pyRound q := by
  have h0 : (0 : ℤ) ≤ ⌊q⌋ := Int.floor_nonneg.mpr h
  unfold pyRound
  split_ifs <;> omega

theorem pyRound_le_int {q : ℚ} {n : ℤ} (h : q ≤ (n : ℚ)) : pyRound q ≤ n := by
  have hfl : ⌊q⌋ ≤ n := by
    have := Int.floor_le_floor h
    simpa using this
  unfold pyRound
  split_ifs with hlt hgt hdvd
  · exact hfl
  · rcases lt_or_eq_of_le hfl with h' | h'
    · omega
    · exfalso
      rw [h'] at hgt
      have : q - (n : ℚ) ≤ 0 := by linarith
      linarith
  · exact hfl
  · rcases lt_or_eq_of_le hfl with h' | h'
    · omega
    · exfalso
      have hge : 1/2 ≤ q - (⌊q⌋ : ℚ) := not_lt.mp hlt
      rw [h'] at hge
      have : q - (n : ℚ) ≤ 0 := by linarith
      linarith

/- ### Helper lemmas: bit packing -/

theorem and_mask255 (x : ℕ) : x &&& 0xFF = x % 256 := by
  have := Nat.and_pow_two_sub_one_eq_mod x 8
  norm_num at this
  exact this

theorem and_mask15 (x : ℕ) : x &&& 0x0F = x % 16 := by
  have := Nat.and_pow_two_sub_one_eq_mod x 4
  norm_num at this
  exact this

theorem and_mask4095 (x : ℕ) : x &&& 0xFFF = x % 4096 := by
  have := Nat.and_pow_two_sub_one_eq_mod x 12
  norm_num at this
  exact this

theorem lor16 {a b : ℕ} (h : b < 16) : a * 16 ||| b = a * 16 + b := by
  have hb : b < 2 ^ 4 := lt_of_lt_of_eq h (by norm_num)
  simpa [Nat.mul_comm, show (2 : ℕ) ^ 4 = 16 by norm_num]
    using (Nat.mul_add_lt_is_or hb a).symm

theorem lor256 {a b : ℕ} (h : b < 256) : a * 256 ||| b = a * 256 + b := by
  have hb : b < 2 ^ 8 := lt_of_lt_of_eq h (by norm_num)
  simpa [Nat.mul_comm, show (2 : ℕ) ^ 8 = 256 by norm_num]
    using (Nat.mul_add_lt_is_or hb a).symm

/-- Recovery of the 16-bit field from its two payload bytes. -/
theorem mit_recover16 (p : ℕ) (hp : p < 2 ^ 16) :
    (((p >>> 8) &&& 0xFF) <<< 8) ||| (p &&& 0xFF) = p := by
  norm_num at hp
  simp only [Nat.shiftLeft_eq, Nat.shiftRight_eq_div_pow, and_mask255, and_mask15,
    show (2 : ℕ) ^ 4 = 16 by norm_num, show (2 : ℕ) ^ 8 = 256 by norm_num]
  rw [lor256 (Nat.mod_lt _ (by norm_num))]
  omega

/-- Recovery of a 12-bit field stored in the high-bits position
(`velocity`, `kd`): `c` is the foreign nibble sharing the middle byte. -/
theorem mit_recover_hi (v c : ℕ) (hv : v < 2 ^ 12) (hc : c < 16) :
    (((v >>> 4) &&& 0xFF) <<< 4) ||| ((((v &&& 0x0F) <<< 4) ||| c) >>> 4) = v := by
  norm_num at hv
  simp only [Nat.shiftLeft_eq, Nat.shiftRight_eq_div_pow, and_mask255, and_mask15,
    show (2 : ℕ) ^ 4 = 16 by norm_num, show (2 : ℕ) ^ 8 = 256 by norm_num]
  rw [lor16 hc]
  rw [lor16 (show (v % 16 * 16 + c) / 16 < 16 by omega)]
  omega

/-- Recovery of a 12-bit field stored in the low-bits position
(`kp`, `torque`): `d` is the foreign nibble sharing the middle byte. -/
theorem mit_recover_lo (kp d : ℕ) (hkp : kp < 2 ^ 12) (_hd : d < 16) :
    ((((d <<< 4) ||| ((kp >>> 8) &&& 0x0F)) &&& 0x0F) <<< 8) ||| (kp &&& 0xFF) = kp := by
  norm_num at hkp
  simp only [Nat.shiftLeft_eq, Nat.shiftRight_eq_div_pow, and_mask255, and_mask15,
    show (2 : ℕ) ^ 4 = 16 by norm_num, show (2 : ℕ) ^ 8 = 256 by norm_num]
  rw [lor16 (Nat.mod_lt _ (by norm_num))]
  rw [lor256 (Nat.mod_lt _ (by norm_num))]
  omega

/- ### Helper lemmas: the scalar fixed-point pipeline -/

theorem float_to_uint_finite_eq {minimum maximum : ℚ} (h : minimum < maximum) (v : ℚ)
    (bits : ℕ) :
    float_to_uint (.finite v) minimum maximum bits =
      .ok ((pyRound ((max (min v maximum) minimum - minimum) / (maximum - minimum) *
        (((1 <<< bits) - 1 : ℕ) : ℚ))) % ((2 : ℤ) ^ bits)).toNat := by
  simp [float_to_uint, h.not_le]

theorem uint_to_float_eq {minimum maximum : ℚ} (h : minimum < maximum) (u bits : ℕ) :
    uint_to_float u minimum maximum bits =
      .ok (((u &&& ((1 <<< bits) - 1) : ℕ) : ℚ) / (((1 <<< bits) - 1 : ℕ) : ℚ) *
        (maximum - minimum) + minimum) := by
  simp [uint_to_float, h.not_le]

theorem two_le_two_pow {bits : ℕ} (hb : 1 ≤ bits) : 2 ≤ 2 ^ bits := by
  calc 2 = 2 ^ 1 := (pow_one 2).symm
  _ ≤ 2 ^ bits := Nat.pow_le_pow_right (by norm_num) hb

/-- In-range values survive the encode/decode pipeline to within half a
quantization step. -/
theorem quant_dequant_close {minimum maximum v : ℚ} {bits : ℕ}
    (h : minimum < maximum) (hb : 1 ≤ bits) (h1 : minimum ≤ v) (h2 : v ≤ maximum) :
    ∃ u : ℕ, float_to_uint (.finite v) minimum maximum bits = .ok u ∧ u < 2 ^ bits ∧
      ∃ w : ℚ, uint_to_float u minimum maximum bits = .ok w ∧
        |w - v| ≤ (maximum - minimum) / (2 * (((1 <<< bits) - 1 : ℕ) : ℚ)) := by
  have hshift : (1 <<< bits : ℕ) = 2 ^ bits := Nat.one_shiftLeft bits
  have hs2 : 2 ≤ 2 ^ bits := two_le_two_pow hb
  have hspan : (0 : ℚ) < maximum - minimum := sub_pos.mpr h
  set s : ℕ := (1 <<< bits) - 1 with hs_def
  have hs1 : 1 ≤ s := by omega
  have hsQ : (0 : ℚ) < (s : ℚ) := by exact_mod_cast Nat.pos_of_ne_zero (by omega)
  have hcl : max (min v maximum) minimum = v := by rw [min_eq_left h2, max_eq_left h1]
  set n : ℚ := (v - minimum) / (maximum - minimum) with hn_def
  have hn0 : 0 ≤ n := div_nonneg (by linarith) hspan.le
  have hn1 : n ≤ 1 := (div_le_one hspan).mpr (by linarith)
  set r : ℤ := pyRound (n * (s : ℚ)) with hr_def
  have hr0 : 0 ≤ r := pyRound_nonneg (mul_nonneg hn0 hsQ.le)
  have hrs : r ≤ (s : ℤ) := by
    apply pyRound_le_int
    push_cast
    nlinarith
  have hsZ : ((s : ℕ) : ℤ) = (2 : ℤ) ^ bits - 1 := by
    rw [hs_def, hshift]
    push_cast [Nat.cast_sub (Nat.one_le_two_pow)]
    ring
  have hrlt : r < (2 : ℤ) ^ bits := by omega
  have hemod : r % ((2 : ℤ) ^ bits) = r := Int.emod_emod_of_dvd r dvd_rfl ▸ Int.emod_eq_of_lt hr0 hrlt
  set u : ℕ := r.toNat with hu_def
  have huZ : (u : ℤ) = r := Int.toNat_of_nonneg hr0
  have hult : u < 2 ^ bits := by
    have : (u : ℤ) < (2 : ℤ) ^ bits := huZ ▸ hrlt
    exact_mod_cast this
  have hus : u ≤ s := by
    have : (u : ℤ) ≤ (s : ℤ) := huZ ▸ hrs
    exact_mod_cast this
  refine ⟨u, ?_, hult, ?_⟩
  · rw [float_to_uint_finite_eq h, hcl, ← hn_def, ← hr_def, hemod, hu_def]
  · rw [uint_to_float_eq h]
    have hmask : u &&& s = u := by
      rw [hs_def, hshift, Nat.and_pow_two_sub_one_eq_mod, Nat.mod_eq_of_lt hult]
    refine ⟨_, by rw [hmask], ?_⟩
    have hrq : |(r : ℚ) - n * (s : ℚ)| ≤ 1 / 2 := pyRound_abs_sub_le (n * (s : ℚ))
    have huq : ((u : ℕ) : ℚ) = ((r : ℤ) : ℚ) := by exact_mod_cast huZ
    have key : (u : ℚ) / (s : ℚ) * (maximum - minimum) + minimum - v =
        ((r : ℚ) - n * (s : ℚ)) * (maximum - minimum) / (s : ℚ) := by
      rw [huq, hn_def]
      field_simp
      ring
    calc |(u : ℚ) / (s : ℚ) * (maximum - minimum) + minimum - v|
        = |(r : ℚ) - n * (s : ℚ)| * ((maximum - minimum) / (s : ℚ)) := by
          rw [key, mul_div_assoc, abs_mul, abs_of_pos (div_pos hspan hsQ)]
      _ ≤ (1 / 2) * ((maximum - minimum) / (s : ℚ)) :=
          mul_le_mul_of_nonneg_right hrq (div_pos hspan hsQ).le
      _ = (maximum - minimum) / (2 * (s : ℚ)) := by ring

/-- A value above the clamping interval decodes to exactly the upper
boundary. -/
theorem quant_dequant_clamp_hi {minimum maximum v : ℚ} {bits : ℕ}
    (h : minimum < maximum) (hb : 1 ≤ bits) (hv : maximum < v) :
    ∃ u : ℕ, float_to_uint (.finite v) minimum maximum bits = .ok u ∧ u < 2 ^ bits ∧
      uint_to_float u minimum maximum bits = .ok maximum := by
  have hshift : (1 <<< bits : ℕ) = 2 ^ bits := Nat.one_shiftLeft bits
  have hs2 : 2 ≤ 2 ^ bits := two_le_two_pow hb
  have hspan : (0 : ℚ) < maximum - minimum := sub_pos.mpr h
  set s : ℕ := (1 <<< bits) - 1 with hs_def
  have hs1 : 1 ≤ s := by omega
  have hsQ : (0 : ℚ) < (s : ℚ) := by exact_mod_cast Nat.pos_of_ne_zero (by omega)
  have hcl : max (min v maximum) minimum = maximum := by
    rw [min_eq_right hv.le, max_eq_left h.le]
  have hn : (maximum - minimum) / (maximum - minimum) * (s : ℚ) = ((s : ℤ) : ℚ) := by
    rw [div_self hspan.ne']
    push_cast
    ring
  have hr : pyRound ((maximum - minimum) / (maximum - minimum) * (s : ℚ)) = (s : ℤ) := by
    rw [hn, pyRound_intCast]
  have hslt : (s : ℤ) < (2 : ℤ) ^ bits := by
    have : s < 2 ^ bits := by omega
    exact_mod_cast this
  refine ⟨s, ?_, by omega, ?_⟩
  · rw [float_to_uint_finite_eq h, hcl, hr,
      Int.emod_eq_of_lt (by exact_mod_cast Nat.zero_le s) hslt]
    simp
  · rw [uint_to_float_eq h]
    have hmask : s &&& s = s := Nat.and_self s
    rw [hmask, div_self hsQ.ne']
    norm_num

/-- A value below the clamping interval decodes to exactly the lower
boundary. -/
theorem quant_dequant_clamp_lo {minimum maximum v : ℚ} {bits : ℕ}
    (h : minimum < maximum) (hb : 1 ≤ bits) (hv : v < minimum) :
    ∃ u : ℕ, float_to_uint (.finite v) minimum maximum bits = .ok u ∧ u < 2 ^ bits ∧
      uint_to_float u minimum maximum bits = .ok minimum := by
  have hshift : (1 <<< bits : ℕ) = 2 ^ bits := Nat.one_shiftLeft bits
  have hs2 : 2 ≤ 2 ^ bits := two_le_two_pow hb
  have hspan : (0 : ℚ) < maximum - minimum := sub_pos.mpr h
  have hcl : max (min v maximum) minimum = minimum := by
    rw [min_eq_left (by linarith), max_eq_right hv.le]
  have hr : pyRound ((minimum - minimum) / (maximum - minimum) *
      (((1 <<< bits) - 1 : ℕ) : ℚ)) = 0 := by
    rw [sub_self, zero_div, zero_mul]
    exact pyRound_intCast 0
  refine ⟨0, ?_, by omega, ?_⟩
  · rw [float_to_uint_finite_eq h, hcl, hr]
    simp
  · rw [uint_to_float_eq h]
    simp

/-- Whatever the incoming integer, the decoded value lies inside the
clamping interval. -/
theorem uint_to_float_mem {minimum maximum : ℚ} {bits : ℕ}
    (h : minimum < maximum) (hb : 1 ≤ bits) (u : ℕ) :
    ∃ w : ℚ, uint_to_float u minimum maximum bits = .ok w ∧
      minimum ≤ w ∧ w ≤ maximum := by
  have hshift : (1 <<< bits : ℕ) = 2 ^ bits := Nat.one_shiftLeft bits
  have hs2 : 2 ≤ 2 ^ bits := two_le_two_pow hb
  have hspan : (0 : ℚ) < maximum - minimum := sub_pos.mpr h
  set s : ℕ := (1 <<< bits) - 1 with hs_def
  have hs1 : 1 ≤ s := by omega
  have hsQ : (0 : ℚ) < (s : ℚ) := by exact_mod_cast Nat.pos_of_ne_zero (by omega)
  have hm : u &&& s ≤ s := by
    rw [hs_def, hshift, Nat.and_pow_two_sub_one_eq_mod]
    omega
  have hmQ : ((u &&& s : ℕ) : ℚ) ≤ (s : ℚ) := by exact_mod_cast hm
  have hm0 : (0 : ℚ) ≤ ((u &&& s : ℕ) : ℚ) := by positivity
  have hratio1 : ((u &&& s : ℕ) : ℚ) / (s : ℚ) ≤ 1 := (div_le_one hsQ).mpr hmQ
  have hratio0 : (0 : ℚ) ≤ ((u &&& s : ℕ) : ℚ) / (s : ℚ) := div_nonneg hm0 hsQ.le
  refine ⟨_, uint_to_float_eq h u bits, ?_, ?_⟩
  · nlinarith
  · nlinarith

theorem Except.ok_bind {ε α β : Type} (a : α) (f : α → Except ε β) :
    (Except.ok a >>= f : Except ε β) = f a := rfl

theorem nibble_lt (x : ℕ) : x &&& 0x0F < 16 := by
  rw [and_mask15]
  exact Nat.mod_lt _ (by norm_num)

/-- Composition of `pack_mit_payload` with `decode_mit` at the same limits:
the five integers survive the byte packing, so the decoded values are the
de-quantizations of the encoded integers. -/
theorem mit_pipeline {pl vl tl kpl kdl : ℚ}
    (hpl : 0 < pl) (hvl : 0 < vl) (htl : 0 < tl) (hkpl : 0 < kpl) (hkdl : 0 < kdl)
    {p v t kp kd : ℚ} {up uv ut ukp ukd : ℕ}
    (hup : float_to_uint (.finite p) (-pl) pl 16 = .ok up) (hb16 : up < 2 ^ 16)
    (huv : float_to_uint (.finite v) (-vl) vl 12 = .ok uv) (hbv : uv < 2 ^ 12)
    (hukp : float_to_uint (.finite kp) 0 kpl 12 = .ok ukp) (hbkp : ukp < 2 ^ 12)
    (hukd : float_to_uint (.finite kd) 0 kdl 12 = .ok ukd) (hbkd : ukd < 2 ^ 12)
    (hut : float_to_uint (.finite t) (-tl) tl 12 = .ok ut) (hbt : ut < 2 ^ 12) :
    ∃ payload,
      pack_mit_payload (.finite p) (.finite v) (.finite t) (.finite kp) (.finite kd)
        pl vl tl kpl kdl = .ok payload ∧
      ∃ wp wv wt wkp wkd,
        uint_to_float up (-pl) pl 16 = .ok wp ∧
        uint_to_float uv (-vl) vl 12 = .ok wv ∧
        uint_to_float ut (-tl) tl 12 = .ok wt ∧
        uint_to_float ukp 0 kpl 12 = .ok wkp ∧
        uint_to_float ukd 0 kdl 12 = .ok wkd ∧
        decode_mit payload pl vl tl kpl kdl = .ok (wp, wv, wt, wkp, wkd) := by
  have hnegp : -pl < pl := by linarith
  have hnegv : -vl < vl := by linarith
  have hnegt : -tl < tl := by linarith
  refine ⟨[(up >>> 8) &&& 0xFF, up &&& 0xFF, (uv >>> 4) &&& 0xFF,
    ((uv &&& 0x0F) <<< 4) ||| ((ukp >>> 8) &&& 0x0F), ukp &&& 0xFF,
    (ukd >>> 4) &&& 0xFF, ((ukd &&& 0x0F) <<< 4) ||| ((ut >>> 8) &&& 0x0F),
    ut &&& 0xFF], ?_, ?_⟩
  · simp only [pack_mit_payload, abs_of_pos hpl, abs_of_pos hvl, abs_of_pos htl,
      abs_of_pos hkpl, abs_of_pos hkdl, hup, huv, hukp, hukd, hut, Except.ok_bind]
  · refine ⟨_, _, _, _, _, uint_to_float_eq hnegp up 16, uint_to_float_eq hnegv uv 12,
      uint_to_float_eq hnegt ut 12, uint_to_float_eq hkpl ukp 12,
      uint_to_float_eq hkdl ukd 12, ?_⟩
    simp only [decode_mit, abs_of_pos hpl, abs_of_pos hvl, abs_of_pos htl,
      abs_of_pos hkpl, abs_of_pos hkdl,
      mit_recover16 up hb16,
      mit_recover_hi uv ((ukp >>> 8) &&& 0x0F) hbv (nibble_lt _),
      mit_recover_lo ukp (uv &&& 0x0F) hbkp (nibble_lt _),
      mit_recover_hi ukd ((ut >>> 8) &&& 0x0F) hbkd (nibble_lt _),
      mit_recover_lo ut (ukd &&& 0x0F) hbt (nibble_lt _),
      uint_to_float_eq hnegp up 16, uint_to_float_eq hnegv uv 12,
      uint_to_float_eq hnegt ut 12, uint_to_float_eq hkpl ukp 12,
      uint_to_float_eq hkdl ukd 12, Except.ok_bind]

/-- `_float_to_uint` succeeds on every finite value whenever the limits
check passes, and its result fits the field's bit width. -/
theorem float_to_uint_finite_total {minimum maximum : ℚ} (h : minimum < maximum) (v : ℚ)
    (bits : ℕ) :
    ∃ u : ℕ, float_to_uint (.finite v) minimum maximum bits = .ok u ∧ u < 2 ^ bits := by
  rw [float_to_uint_finite_eq h]
  refine ⟨_, rfl, ?_⟩
  have h2 : (0 : ℤ) < (2 : ℤ) ^ bits := by positivity
  have hlt := Int.emod_lt_of_pos
    (pyRound ((max (min v maximum) minimum - minimum) / (maximum - minimum) *
      (((1 <<< bits) - 1 : ℕ) : ℚ))) h2
  have : ((2 : ℤ) ^ bits) = ((2 ^ bits : ℕ) : ℤ) := by push_cast; ring
  omega

/-- C1: for every position, velocity, torque, kp and kd within their
limits (limits positive), `decode_mit` after `pack_mit_payload` at the same
limits reproduces each value to within one quantization step: at most
`2·range/65535` for the 16-bit position and `2·range/4095` for each 12-bit
field, where `range` is the width of the field's clamping interval. -/
theorem mit_roundtrip_within_quantization
    (p v t kp kd pl vl tl kpl kdl : ℚ)
    (hlim : 0 < pl ∧ 0 < vl ∧ 0 < tl ∧ 0 < kpl ∧ 0 < kdl)
    (hin : -pl ≤ p ∧ p ≤ pl ∧ -vl ≤ v ∧ v ≤ vl ∧ -tl ≤ t ∧ t ≤ tl ∧
      0 ≤ kp ∧ kp ≤ kpl ∧ 0 ≤ kd ∧ kd ≤ kdl) :
    ∃ payload p' v' t' kp' kd',
      pack_mit_payload (.finite p) (.finite v) (.finite t) (.finite kp) (.finite kd)
        pl vl tl kpl kdl = .ok payload ∧
      decode_mit payload pl vl tl kpl kdl = .ok (p', v', t', kp', kd') ∧
      |p' - p| ≤ 2 * (pl - -pl) / 65535 ∧
      |v' - v| ≤ 2 * (vl - -vl) / 4095 ∧
      |t' - t| ≤ 2 * (tl - -tl) / 4095 ∧
      |kp' - kp| ≤ 2 * (kpl - 0) / 4095 ∧
      |kd' - kd| ≤ 2 * (kdl - 0) / 4095 := by
  obtain ⟨hpl, hvl, htl, hkpl, hkdl⟩ := hlim
  obtain ⟨hp1, hp2, hv1, hv2, ht1, ht2, hkp1, hkp2, hkd1, hkd2⟩ := hin
  have hnegp : -pl < pl := by linarith
  have hnegv : -vl < vl := by linarith
  have hnegt : -tl < tl := by linarith
  obtain ⟨up, hup, hbp, wp, hwp, hdp⟩ :=
    @quant_dequant_close (-pl) pl p 16 hnegp (by norm_num) hp1 hp2
  obtain ⟨uv, huv, hbv, wv, hwv, hdv⟩ :=
    @quant_dequant_close (-vl) vl v 12 hnegv (by norm_num) hv1 hv2
  obtain ⟨ut, hut, hbt, wt, hwt, hdt⟩ :=
    @quant_dequant_close (-tl) tl t 12 hnegt (by norm_num) ht1 ht2
  obtain ⟨ukp, hukp, hbkp, wkp, hwkp, hdkp⟩ :=
    @quant_dequant_close 0 kpl kp 12 hkpl (by norm_num) hkp1 hkp2
  obtain ⟨ukd, hukd, hbkd, wkd, hwkd, hdkd⟩ :=
    @quant_dequant_close 0 kdl kd 12 hkdl (by norm_num) hkd1 hkd2
  obtain ⟨payload, hpack, wp', wv', wt', wkp', wkd',
    hwp', hwv', hwt', hwkp', hwkd', hdec⟩ :=
    mit_pipeline hpl hvl htl hkpl hkdl hup hbp huv hbv hukp hbkp hukd hbkd hut hbt
  have ep : wp' = wp := by rw [hwp] at hwp'; exact (Except.ok.inj hwp').symm
  have ev : wv' = wv := by rw [hwv] at hwv'; exact (Except.ok.inj hwv').symm
  have et : wt' = wt := by rw [hwt] at hwt'; exact (Except.ok.inj hwt').symm
  have ekp : wkp' = wkp := by rw [hwkp] at hwkp'; exact (Except.ok.inj hwkp').symm
  have ekd : wkd' = wkd := by rw [hwkd] at hwkd'; exact (Except.ok.inj hwkd').symm
  have e16 : (((1 <<< 16) - 1 : ℕ) : ℚ) = 65535 := by norm_num [Nat.one_shiftLeft]
  have e12 : (((1 <<< 12) - 1 : ℕ) : ℚ) = 4095 := by norm_num [Nat.one_shiftLeft]
  rw [e16] at hdp
  rw [e12] at hdv hdt hdkp hdkd
  refine ⟨payload, wp, wv, wt, wkp, wkd, hpack, by rw [hdec, ep, ev, et, ekp, ekd], ?_, ?_, ?_, ?_, ?_⟩
  · calc |wp - p| ≤ (pl - -pl) / (2 * 65535) := hdp
    _ ≤ 2 * (pl - -pl) / 65535 := by rw [div_le_div_iff₀ (by norm_num) (by norm_num)]; linarith
  · calc |wv - v| ≤ (vl - -vl) / (2 * 4095) := hdv
    _ ≤ 2 * (vl - -vl) / 4095 := by rw [div_le_div_iff₀ (by norm_num) (by norm_num)]; linarith
  · calc |wt - t| ≤ (tl - -tl) / (2 * 4095) := hdt
    _ ≤ 2 * (tl - -tl) / 4095 := by rw [div_le_div_iff₀ (by norm_num) (by norm_num)]; linarith
  · calc |wkp - kp| ≤ (kpl - 0) / (2 * 4095) := hdkp
    _ ≤ 2 * (kpl - 0) / 4095 := by rw [div_le_div_iff₀ (by norm_num) (by norm_num)]; linarith
  · calc |wkd - kd| ≤ (kdl - 0) / (2 * 4095) := hdkd
    _ ≤ 2 * (kdl - 0) / 4095 := by rw [div_le_div_iff₀ (by norm_num) (by norm_num)]; linarith

/-- Witness for C1 at the default limits and a concrete in-range setpoint. -/
theorem mit_roundtrip_within_quantization_witness :
    ∃ payload p' v' t' kp' kd',
      pack_mit_payload (.finite 1) (.finite 2) (.finite 3) (.finite 100) (.finite 5)
        12 30 20 400 10 = .ok payload ∧
      decode_mit payload 12 30 20 400 10 = .ok (p', v', t', kp', kd') ∧
      |p' - 1| ≤ 2 * (12 - -12) / 65535 ∧
      |v' - 2| ≤ 2 * (30 - -30) / 4095 ∧
      |t' - 3| ≤ 2 * (20 - -20) / 4095 ∧
      |kp' - 100| ≤ 2 * (400 - 0) / 4095 ∧
      |kd' - 5| ≤ 2 * (10 - 0) / 4095 :=
  mit_roundtrip_within_quantization 1 2 3 100 5 12 30 20 400 10
    (by norm_num) (by norm_num)

/-- C2: an input lying outside its clamping interval encodes and decodes
(at the same positive limits) to exactly the nearest interval endpoint —
the corresponding limit boundary, never a wrapped-around value. -/
theorem mit_out_of_range_clamps
    (p v t kp kd pl vl tl kpl kdl : ℚ)
    (hlim : 0 < pl ∧ 0 < vl ∧ 0 < tl ∧ 0 < kpl ∧ 0 < kdl) :
    ∃ payload p' v' t' kp' kd',
      pack_mit_payload (.finite p) (.finite v) (.finite t) (.finite kp) (.finite kd)
        pl vl tl kpl kdl = .ok payload ∧
      decode_mit payload pl vl tl kpl kdl = .ok (p', v', t', kp', kd') ∧
      (pl < p → p' = pl) ∧ (p < -pl → p' = -pl) ∧
      (vl < v → v' = vl) ∧ (v < -vl → v' = -vl) ∧
      (tl < t → t' = tl) ∧ (t < -tl → t' = -tl) ∧
      (kpl < kp → kp' = kpl) ∧ (kp < 0 → kp' = 0) ∧
      (kdl < kd → kd' = kdl) ∧ (kd < 0 → kd' = 0) := by
  obtain ⟨hpl, hvl, htl, hkpl, hkdl⟩ := hlim
  have hnegp : -pl < pl := by linarith
  have hnegv : -vl < vl := by linarith
  have hnegt : -tl < tl := by linarith
  obtain ⟨up, hup, hbp⟩ := float_to_uint_finite_total hnegp p 16
  obtain ⟨uv, huv, hbv⟩ := float_to_uint_finite_total hnegv v 12
  obtain ⟨ut, hut, hbt⟩ := float_to_uint_finite_total hnegt t 12
  obtain ⟨ukp, hukp, hbkp⟩ := float_to_uint_finite_total hkpl kp 12
  obtain ⟨ukd, hukd, hbkd⟩ := float_to_uint_finite_total hkdl kd 12
  obtain ⟨payload, hpack, wp, wv, wt, wkp, wkd,
    hwp, hwv, hwt, hwkp, hwkd, hdec⟩ :=
    mit_pipeline hpl hvl htl hkpl hkdl hup hbp huv hbv hukp hbkp hukd hbkd hut hbt
  refine ⟨payload, wp, wv, wt, wkp, wkd, hpack, hdec, ?_, ?_, ?_, ?_, ?_, ?_, ?_, ?_, ?_, ?_⟩
  · intro hout
    obtain ⟨u', hu', _, hw'⟩ := @quant_dequant_clamp_hi (-pl) pl p 16 hnegp (by norm_num) hout
    rw [hup] at hu'
    rw [← Except.ok.inj hu'] at hw'
    rw [hwp] at hw'
    exact Except.ok.inj hw'
  · intro hout
    obtain ⟨u', hu', _, hw'⟩ := @quant_dequant_clamp_lo (-pl) pl p 16 hnegp (by norm_num) hout
    rw [hup] at hu'
    rw [← Except.ok.inj hu'] at hw'
    rw [hwp] at hw'
    exact Except.ok.inj hw'
  · intro hout
    obtain ⟨u', hu', _, hw'⟩ := @quant_dequant_clamp_hi (-vl) vl v 12 hnegv (by norm_num) hout
    rw [huv] at hu'
    rw [← Except.ok.inj hu'] at hw'
    rw [hwv] at hw'
    exact Except.ok.inj hw'
  · intro hout
    obtain ⟨u', hu', _, hw'⟩ := @quant_dequant_clamp_lo (-vl) vl v 12 hnegv (by norm_num) hout
    rw [huv] at hu'
    rw [← Except.ok.inj hu'] at hw'
    rw [hwv] at hw'
    exact Except.ok.inj hw'
  · intro hout
    obtain ⟨u', hu', _, hw'⟩ := @quant_dequant_clamp_hi (-tl) tl t 12 hnegt (by norm_num) hout
    rw [hut] at hu'
    rw [← Except.ok.inj hu'] at hw'
    rw [hwt] at hw'
    exact Except.ok.inj hw'
  · intro hout
    obtain ⟨u', hu', _, hw'⟩ := @quant_dequant_clamp_lo (-tl) tl t 12 hnegt (by norm_num) hout
    rw [hut] at hu'
    rw [← Except.ok.inj hu'] at hw'
    rw [hwt] at hw'
    exact Except.ok.inj hw'
  · intro hout
    obtain ⟨u', hu', _, hw'⟩ := @quant_dequant_clamp_hi 0 kpl kp 12 hkpl (by norm_num) hout
    rw [hukp] at hu'
    rw [← Except.ok.inj hu'] at hw'
    rw [hwkp] at hw'
    exact Except.ok.inj hw'
  · intro hout
    obtain ⟨u', hu', _, hw'⟩ := @quant_dequant_clamp_lo 0 kpl kp 12 hkpl (by norm_num) hout
    rw [hukp] at hu'
    rw [← Except.ok.inj hu'] at hw'
    rw [hwkp] at hw'
    exact Except.ok.inj hw'
  · intro hout
    obtain ⟨u', hu', _, hw'⟩ := @quant_dequant_clamp_hi 0 kdl kd 12 hkdl (by norm_num) hout
    rw [hukd] at hu'
    rw [← Except.ok.inj hu'] at hw'
    rw [hwkd] at hw'
    exact Except.ok.inj hw'
  · intro hout
    obtain ⟨u', hu', _, hw'⟩ := @quant_dequant_clamp_lo 0 kdl kd 12 hkdl (by norm_num) hout
    rw [hukd] at hu'
    rw [← Except.ok.inj hu'] at hw'
    rw [hwkd] at hw'
    exact Except.ok.inj hw'

/-- Witness for C2: all five inputs out of range at the default limits. -/
theorem mit_out_of_range_clamps_witness :
    ∃ payload p' v' t' kp' kd',
      pack_mit_payload (.finite 100) (.finite (-100)) (.finite 100) (.finite 500)
        (.finite (-1)) 12 30 20 400 10 = .ok payload ∧
      decode_mit payload 12 30 20 400 10 = .ok (p', v', t', kp', kd') ∧
      ((12 : ℚ) < 100 → p' = 12) ∧ ((100 : ℚ) < -12 → p' = -12) ∧
      ((30 : ℚ) < -100 → v' = 30) ∧ ((-100 : ℚ) < -30 → v' = -30) ∧
      ((20 : ℚ) < 100 → t' = 20) ∧ ((100 : ℚ) < -20 → t' = -20) ∧
      ((400 : ℚ) < 500 → kp' = 400) ∧ ((500 : ℚ) < 0 → kp' = 0) ∧
      ((10 : ℚ) < -1 → kd' = 10) ∧ ((-1 : ℚ) < 0 → kd' = 0) :=
  mit_out_of_range_clamps 100 (-100) 100 500 (-1) 12 30 20 400 10 (by norm_num)

/-- C10 (implicit): `decode_mit` is total on every 8-byte payload, and for
positive limits each decoded value lies inside its clamping interval:
position, velocity and torque in `[-limit, limit]`, kp and kd in
`[0, limit]`. -/
theorem decode_mit_total_and_in_range
    (payload : List ℕ) (pl vl tl kpl kdl : ℚ)
    (hlen : payload.length = 8)
    (hlim : 0 < pl ∧ 0 < vl ∧ 0 < tl ∧ 0 < kpl ∧ 0 < kdl) :
    ∃ p' v' t' kp' kd',
      decode_mit payload pl vl tl kpl kdl = .ok (p', v', t', kp', kd') ∧
      -pl ≤ p' ∧ p' ≤ pl ∧ -vl ≤ v' ∧ v' ≤ vl ∧ -tl ≤ t' ∧ t' ≤ tl ∧
      0 ≤ kp' ∧ kp' ≤ kpl ∧ 0 ≤ kd' ∧ kd' ≤ kdl := by
  obtain ⟨hpl, hvl, htl, hkpl, hkdl⟩ := hlim
  have hnegp : -pl < pl := by linarith
  have hnegv : -vl < vl := by linarith
  have hnegt : -tl < tl := by linarith
  match payload, hlen with
  | [b0, b1, b2, b3, b4, b5, b6, b7], _ =>
    obtain ⟨wp, hwp, hwp1, hwp2⟩ := @uint_to_float_mem (-pl) pl 16 hnegp (by norm_num)
      ((b0 <<< 8) ||| b1)
    obtain ⟨wv, hwv, hwv1, hwv2⟩ := @uint_to_float_mem (-vl) vl 12 hnegv (by norm_num)
      ((b2 <<< 4) ||| (b3 >>> 4))
    obtain ⟨wkp, hwkp, hwkp1, hwkp2⟩ := @uint_to_float_mem 0 kpl 12 hkpl (by norm_num)
      (((b3 &&& 0x0F) <<< 8) ||| b4)
    obtain ⟨wkd, hwkd, hwkd1, hwkd2⟩ := @uint_to_float_mem 0 kdl 12 hkdl (by norm_num)
      ((b5 <<< 4) ||| (b6 >>> 4))
    obtain ⟨wt, hwt, hwt1, hwt2⟩ := @uint_to_float_mem (-tl) tl 12 hnegt (by norm_num)
      (((b6 &&& 0x0F) <<< 8) ||| b7)
    refine ⟨wp, wv, wt, wkp, wkd, ?_, hwp1, hwp2, hwv1, hwv2, hwt1, hwt2,
      hwkp1, hwkp2, hwkd1, hwkd2⟩
    simp only [decode_mit, abs_of_pos hpl, abs_of_pos hvl, abs_of_pos htl,
      abs_of_pos hkpl, abs_of_pos hkdl, hwp, hwv, hwkp, hwkd, hwt, Except.ok_bind]

/-- Witness for C10 on a concrete all-ones payload at the default limits. -/
theorem decode_mit_total_and_in_range_witness :
    ∃ p' v' t' kp' kd',
      decode_mit [255, 255, 255, 255, 255, 255, 255, 255] 12 30 20 400 10 =
        .ok (p', v', t', kp', kd') ∧
      -12 ≤ p' ∧ p' ≤ 12 ∧ -30 ≤ v' ∧ v' ≤ 30 ∧ -20 ≤ t' ∧ t' ≤ 20 ∧
      0 ≤ kp' ∧ kp' ≤ 400 ∧ 0 ≤ kd' ∧ kd' ≤ 10 :=
  decode_mit_total_and_in_range [255, 255, 255, 255, 255, 255, 255, 255]
    12 30 20 400 10 (by decide) (by norm_num)

/- ### Helper lemmas: two's-complement sign extension -/

theorem xor_two_pow_of_lt {v n : ℕ} (h : v < 2 ^ n) : v ^^^ 2 ^ n = v + 2 ^ n := by
  have hrw : v + 2 ^ n = 2 ^ n * 1 + v := by ring
  apply Nat.eq_of_testBit_eq
  intro i
  rw [hrw, Nat.testBit_mul_pow_two_add 1 h i, Nat.testBit_xor]
  rcases lt_trichotomy i n with hi | hi | hi
  · simp [hi, Nat.testBit_two_pow_of_ne (Nat.ne_of_gt hi)]
  · subst hi
    simp [Nat.testBit_two_pow_self, Nat.testBit_lt_two_pow h]
  · have hvi : Nat.testBit v i = false :=
      Nat.testBit_lt_two_pow (lt_of_lt_of_le h (Nat.pow_le_pow_right (by norm_num) hi.le))
    have h1 : Nat.testBit 1 (i - n) = false := by
      cases hcase : Nat.testBit 1 (i - n)
      · rfl
      · have := Nat.testBit_one_eq_true_iff_self_eq_zero.mp hcase
        omega
    simp [hvi, Nat.testBit_two_pow_of_ne (Nat.ne_of_lt hi), Nat.not_lt.mpr hi.le, h1]

theorem xor_two_pow_of_ge {v n : ℕ} (hlo : 2 ^ n ≤ v) (hhi : v < 2 ^ (n + 1)) :
    v ^^^ 2 ^ n = v - 2 ^ n := by
  have hw : v - 2 ^ n < 2 ^ n := by
    rw [pow_succ] at hhi
    omega
  have h2 : (v - 2 ^ n) + 2 ^ n = v := by omega
  calc v ^^^ 2 ^ n = ((v - 2 ^ n) + 2 ^ n) ^^^ 2 ^ n := by rw [h2]
  _ = ((v - 2 ^ n) ^^^ 2 ^ n) ^^^ 2 ^ n := by rw [xor_two_pow_of_lt hw]
  _ = (v - 2 ^ n) ^^^ (2 ^ n ^^^ 2 ^ n) := Nat.xor_assoc _ _ _
  _ = v - 2 ^ n := by simp

/-- `_to_signed` is the two's-complement sign extension: congruent to the
raw value modulo `2^bits` and lying in `[-2^(bits-1), 2^(bits-1))`. -/
theorem to_signed_spec {v : ℕ} (bits : ℕ) (hb : 1 ≤ bits) (hv : v < 2 ^ bits) :
    to_signed v bits ≡ (v : ℤ) [ZMOD ((2 : ℤ) ^ bits)] ∧
    -((2 : ℤ) ^ (bits - 1)) ≤ to_signed v bits ∧
    to_signed v bits < (2 : ℤ) ^ (bits - 1) := by
  obtain ⟨n, rfl⟩ : ∃ n, bits = n + 1 := ⟨bits - 1, by omega⟩
  have hshift : (1 <<< n : ℕ) = 2 ^ n := Nat.one_shiftLeft n
  have hn : n + 1 - 1 = n := by omega
  simp only [to_signed, hn, hshift]
  rcases lt_or_ge v (2 ^ n) with hc | hc
  · rw [xor_two_pow_of_lt hc]
    have hz : (((v + 2 ^ n : ℕ)) : ℤ) - ((2 ^ n : ℕ) : ℤ) = (v : ℤ) := by push_cast; ring
    rw [hz]
    refine ⟨Int.ModEq.refl _, ?_, ?_⟩
    · have : (0 : ℤ) ≤ (v : ℤ) := Int.natCast_nonneg v
      have hp : (0 : ℤ) ≤ (2 : ℤ) ^ n := by positivity
      linarith
    · exact_mod_cast hc
  · rw [xor_two_pow_of_ge hc hv]
    have hz : (((v - 2 ^ n : ℕ)) : ℤ) - ((2 ^ n : ℕ) : ℤ) = (v : ℤ) - (2 : ℤ) ^ (n + 1) := by
      push_cast [Nat.cast_sub hc]
      rw [pow_succ]
      ring
    rw [hz]
    refine ⟨Int.emod_sub_cancel _ _, ?_, ?_⟩
    · have h1 : ((2 : ℤ) ^ n) ≤ (v : ℤ) := by exact_mod_cast hc
      have h2 : (2 : ℤ) ^ (n + 1) = 2 * 2 ^ n := by rw [pow_succ]; ring
      linarith
    · have h1 : (v : ℤ) < (2 : ℤ) ^ (n + 1) := by exact_mod_cast hv
      have h2 : (2 : ℤ) ^ (n + 1) = 2 * 2 ^ n := by rw [pow_succ]; ring
      have hp : (0 : ℤ) < (2 : ℤ) ^ n := by positivity
      linarith

theorem shiftr4_eq (x : ℕ) : x >>> 4 = x / 16 := by
  rw [Nat.shiftRight_eq_div_pow]

/-- C7: `decode_feedback` extracts esc id and status from byte 0's nibbles,
the signed 16-bit position from bytes 1–2, the signed 12-bit velocity from
byte 3 and byte 4's high nibble, the signed 12-bit torque from byte 4's low
nibble and byte 5, and the temperatures from bytes 6–7, sign-extending the
signed fields by two's complement; any other payload length fails with the
malformed-frame error. -/
theorem decode_feedback_fields :
    (∀ b0 b1 b2 b3 b4 b5 b6 b7 : ℕ,
      b0 < 256 → b1 < 256 → b2 < 256 → b3 < 256 → b4 < 256 → b5 < 256 →
      b6 < 256 → b7 < 256 →
      ∃ fb, decode_feedback [b0, b1, b2, b3, b4, b5, b6, b7] = .ok fb ∧
        fb.esc_id = b0 % 16 ∧ fb.status = b0 / 16 ∧
        fb.position_raw ≡ ((b1 * 256 + b2 : ℕ) : ℤ) [ZMOD ((65536 : ℕ) : ℤ)] ∧
        -(32768 : ℤ) ≤ fb.position_raw ∧ fb.position_raw < 32768 ∧
        fb.velocity_raw ≡ ((b3 * 16 + b4 / 16 : ℕ) : ℤ) [ZMOD ((4096 : ℕ) : ℤ)] ∧
        -(2048 : ℤ) ≤ fb.velocity_raw ∧ fb.velocity_raw < 2048 ∧
        fb.torque_raw ≡ ((b4 % 16 * 256 + b5 : ℕ) : ℤ) [ZMOD ((4096 : ℕ) : ℤ)] ∧
        -(2048 : ℤ) ≤ fb.torque_raw ∧ fb.torque_raw < 2048 ∧
        fb.temp_mos = b6 ∧ fb.temp_rotor = b7) ∧
    (∀ data : List ℕ, data.length ≠ 8 →
      decode_feedback data = .error "Feedback frame must be 8 bytes") := by
  constructor
  · intro b0 b1 b2 b3 b4 b5 b6 b7 h0 h1 h2 h3 h4 h5 h6 h7
    refine ⟨_, rfl, ?_, ?_, ?_⟩
    · simp [decode_feedback, and_mask15]
    · simp [decode_feedback, shiftr4_eq]
    · have hpos : (b1 <<< 8) ||| b2 = b1 * 256 + b2 := by
        rw [Nat.shiftLeft_eq, show (2 : ℕ) ^ 8 = 256 by norm_num, lor256 h2]
      have hvel : ((b3 <<< 4) ||| (b4 >>> 4)) &&& 0xFFF = b3 * 16 + b4 / 16 := by
        rw [Nat.shiftLeft_eq, show (2 : ℕ) ^ 4 = 16 by norm_num, shiftr4_eq,
          lor16 (by omega), and_mask4095, Nat.mod_eq_of_lt (by omega)]
      have htor : ((b4 &&& 0x0F) <<< 8) ||| b5 = b4 % 16 * 256 + b5 := by
        rw [and_mask15, Nat.shiftLeft_eq, show (2 : ℕ) ^ 8 = 256 by norm_num, lor256 h5]
      have hp := to_signed_spec 16 (by norm_num) (v := b1 * 256 + b2)
        (by norm_num; omega)
      have hv := to_signed_spec 12 (by norm_num) (v := b3 * 16 + b4 / 16)
        (by norm_num; omega)
      have ht := to_signed_spec 12 (by norm_num) (v := b4 % 16 * 256 + b5)
        (by norm_num; omega)
      simp only [decode_feedback, hpos, hvel, htor]
      norm_num at hp hv ht ⊢
      exact ⟨hp.1, hp.2.1, hp.2.2, hv.1, hv.2.1, hv.2.2, ht.1, ht.2.1, ht.2.2⟩
  · intro data hlen
    rcases data with _ | ⟨b0, data⟩
    · rfl
    rcases data with _ | ⟨b1, data⟩
    · rfl
    rcases data with _ | ⟨b2, data⟩
    · rfl
    rcases data with _ | ⟨b3, data⟩
    · rfl
    rcases data with _ | ⟨b4, data⟩
    · rfl
    rcases data with _ | ⟨b5, data⟩
    · rfl
    rcases data with _ | ⟨b6, data⟩
    · rfl
    rcases data with _ | ⟨b7, data⟩
    · rfl
    rcases data with _ | ⟨b8, data⟩
    · simp at hlen
    · rfl

/-- Witness for C7 at a concrete frame exercising both sign boundaries. -/
theorem decode_feedback_fields_witness :
    ∃ fb, decode_feedback [0x12, 0x80, 0x00, 0x80, 0x08, 0x00, 40, 41] = .ok fb ∧
      fb.esc_id = 0x12 % 16 ∧ fb.status = 0x12 / 16 ∧
      fb.position_raw ≡ ((0x80 * 256 + 0x00 : ℕ) : ℤ) [ZMOD ((65536 : ℕ) : ℤ)] ∧
      -(32768 : ℤ) ≤ fb.position_raw ∧ fb.position_raw < 32768 ∧
      fb.velocity_raw ≡ ((0x80 * 16 + 0x08 / 16 : ℕ) : ℤ) [ZMOD ((4096 : ℕ) : ℤ)] ∧
      -(2048 : ℤ) ≤ fb.velocity_raw ∧ fb.velocity_raw < 2048 ∧
      fb.torque_raw ≡ ((0x08 % 16 * 256 + 0x00 : ℕ) : ℤ) [ZMOD ((4096 : ℕ) : ℤ)] ∧
      -(2048 : ℤ) ≤ fb.torque_raw ∧ fb.torque_raw < 2048 ∧
      fb.temp_mos = 40 ∧ fb.temp_rotor = 41 :=
  decode_feedback_fields.1 0x12 0x80 0x00 0x80 0x08 0x00 40 41
    (by norm_num) (by norm_num) (by norm_num) (by norm_num) (by norm_num)
    (by norm_num) (by norm_num) (by norm_num)

/- ### Helper lemmas: build_filters -/

theorem mem_firstNew (l : List ℕ) : ∀ (seen : List ℕ) (x : ℕ),
    x ∈ firstNew seen l ↔ x ∈ l ∧ x ∉ seen := by
  induction l with
  | nil => intro seen x; simp [firstNew]
  | cons y ys ih =>
    intro seen x
    by_cases hy : y ∈ seen
    · rw [firstNew, if_pos hy, ih]
      constructor
      · rintro ⟨hx, hns⟩
        exact ⟨List.mem_cons_of_mem _ hx, hns⟩
      · rintro ⟨hx, hns⟩
        rcases List.mem_cons.mp hx with h | h
        · subst h; exact absurd hy hns
        · exact ⟨h, hns⟩
    · rw [firstNew, if_neg hy]
      constructor
      · intro hx
        rcases List.mem_cons.mp hx with h | h
        · subst h; exact ⟨List.mem_cons_self _ _, hy⟩
        · obtain ⟨h1, h2⟩ := (ih _ _).mp h
          refine ⟨List.mem_cons_of_mem _ h1, fun hc => h2 ?_⟩
          exact List.mem_append_left _ hc
      · rintro ⟨hx, hns⟩
        rcases List.mem_cons.mp hx with h | h
        · subst h; exact List.mem_cons_self _ _
        · by_cases hxy : x = y
          · subst hxy; exact List.mem_cons_self _ _
          · refine List.mem_cons_of_mem _ ((ih _ _).mpr ⟨h, fun hc => ?_⟩)
            rcases List.mem_append.mp hc with h' | h'
            · exact hns h'
            · exact hxy (List.mem_singleton.mp h')

theorem nodup_firstNew (l : List ℕ) : ∀ seen : List ℕ, (firstNew seen l).Nodup := by
  induction l with
  | nil => intro seen; simp [firstNew]
  | cons y ys ih =>
    intro seen
    by_cases hy : y ∈ seen
    · rw [firstNew, if_pos hy]; exact ih seen
    · rw [firstNew, if_neg hy]
      refine List.nodup_cons.mpr ⟨fun hc => ?_, ih _⟩
      obtain ⟨_, h2⟩ := (mem_firstNew _ _ _).mp hc
      exact h2 (List.mem_append_right _ (List.mem_singleton.mpr rfl))

theorem build_filters_foldl (l : List ℕ) : ∀ (fs : List FilterRule) (seen : List ℕ),
    l.foldl (fun acc mst_id => if mst_id ∈ acc.2 then acc
      else (acc.1 ++ [exactRule mst_id], acc.2 ++ [mst_id])) (fs, seen)
    = (fs ++ (firstNew seen l).map exactRule, seen ++ firstNew seen l) := by
  induction l with
  | nil => intro fs seen; simp [firstNew]
  | cons x xs ih =>
    intro fs seen
    rw [List.foldl_cons]
    by_cases hx : x ∈ seen
    · rw [firstNew, if_pos hx]
      simpa [hx] using ih fs seen
    · rw [firstNew, if_neg hx]
      have := ih (fs ++ [exactRule x]) (seen ++ [x])
      simp only [if_neg hx] at this ⊢
      rw [this]
      simp

/-- `build_filters` in closed form: the exact filters for the distinct
non-management ids, in first-occurrence order, followed by the management
filter. -/
theorem build_filters_eq (l : List ℕ) :
    build_filters l =
      ((firstNew [] l).filter
        (fun m => !(m == MANAGEMENT_ARBITRATION_ID))).map exactRule ++ [managementRule] := by
  unfold build_filters
  rw [build_filters_foldl]
  simp only [List.nil_append]
  by_cases hm : MANAGEMENT_ARBITRATION_ID ∈ firstNew [] l
  · rw [if_pos hm, List.filter_map]
    congr 2
    apply List.filter_congr
    intro m _
    simp [Function.comp, exactRule]
  · rw [if_neg hm]
    congr 1
    have : (firstNew [] l).filter (fun m => !(m == MANAGEMENT_ARBITRATION_ID)) =
        firstNew [] l := by
      apply List.filter_eq_self.mpr
      intro m hmem
      simp only [Bool.not_eq_true']
      exact beq_eq_false_iff_ne.mpr (fun he => hm (he ▸ hmem))
    rw [this]

theorem exactRule_injective : Function.Injective exactRule := by
  intro a b h
  exact congrArg FilterRule.can_id h

/-- C8: `build_filters` returns exactly one exact-match filter per distinct
input `mst_id`, plus exactly one management filter, never duplicated even
when the management address appears in the input; in particular
`build_filters [0x101, 0x101, 0x7FF]` is exactly one filter for `0x101`
and one for the management address. -/
theorem build_filters_unique_per_id :
    (∀ l : List ℕ, (build_filters l).count managementRule = 1) ∧
    (∀ l : List ℕ, ∀ m ∈ l, m ≠ MANAGEMENT_ARBITRATION_ID →
      (build_filters l).count (exactRule m) = 1) ∧
    (∀ l : List ℕ, ∀ r ∈ build_filters l,
      r = managementRule ∨ ∃ m ∈ l, r = exactRule m) ∧
    build_filters [0x101, 0x101, 0x7FF] = [exactRule 0x101, managementRule] := by
  refine ⟨?_, ?_, ?_, by decide⟩
  · intro l
    rw [build_filters_eq, List.count_append]
    have h0 : (((firstNew [] l).filter
        (fun m => !(m == MANAGEMENT_ARBITRATION_ID))).map exactRule).count
        managementRule = 0 := by
      rw [List.count_eq_zero]
      intro hc
      obtain ⟨m, hmem, hme⟩ := List.mem_map.mp hc
      have : m = MANAGEMENT_ARBITRATION_ID := exactRule_injective hme
      subst this
      have := List.of_mem_filter hmem
      simp at this
    rw [h0]
    rfl
  · intro l m hml hmne
    rw [build_filters_eq, List.count_append]
    have h1 : (((firstNew [] l).filter
        (fun m => !(m == MANAGEMENT_ARBITRATION_ID))).map exactRule).count
        (exactRule m) = 1 := by
      rw [List.count_map_of_injective _ _ exactRule_injective]
      apply List.count_eq_one_of_mem
      · exact (nodup_firstNew l []).filter _
      · apply List.mem_filter.mpr
        refine ⟨(mem_firstNew l [] m).mpr ⟨hml, by simp⟩, by simpa using hmne⟩
    have h2 : List.count (exactRule m) [managementRule] = 0 := by
      rw [List.count_eq_zero]
      intro hc
      have : exactRule m = managementRule := List.mem_singleton.mp hc
      exact hmne (congrArg FilterRule.can_id this)
    rw [h1, h2]
  · intro l r hr
    rw [build_filters_eq] at hr
    rcases List.mem_append.mp hr with h | h
    · obtain ⟨m, hmem, hme⟩ := List.mem_map.mp h
      exact Or.inr ⟨m, ((mem_firstNew l [] m).mp (List.mem_of_mem_filter hmem)).1,
        hme.symm⟩
    · exact Or.inl (List.mem_singleton.mp h)

/-- Witness for C8 at the concrete input from the spec. -/
theorem build_filters_unique_per_id_witness :
    (build_filters [0x101, 0x101, 0x7FF]).count (exactRule 0x101) = 1 ∧
    (build_filters [0x101, 0x101, 0x7FF]).count managementRule = 1 :=
  ⟨build_filters_unique_per_id.2.1 [0x101, 0x101, 0x7FF] 0x101 (by decide) (by decide),
    build_filters_unique_per_id.1 [0x101, 0x101, 0x7FF]⟩

/- ### Helper lemmas: watchdog -/

theorem lookup_filter_ne (l : List (ℕ × ℚ)) (k k' : ℕ) (h : k' ≠ k) :
    List.lookup k' (l.filter (fun p => !(p.1 == k))) = List.lookup k' l := by
  induction l with
  | nil => rfl
  | cons a t ih =>
    by_cases ha : a.1 = k
    · rw [List.filter_cons_of_neg (by simp [ha]), ih]
      cases a with
      | mk a1 a2 =>
        have : (k' == a1) = false := beq_eq_false_iff_ne.mpr (by simp at ha; omega)
        simp [List.lookup, this]
    · rw [List.filter_cons_of_pos (by simp [ha])]
      cases a with
      | mk a1 a2 =>
        by_cases hk : k' = a1
        · subst hk; simp [List.lookup]
        · have : (k' == a1) = false := beq_eq_false_iff_ne.mpr hk
          simp [List.lookup, this, ih]

theorem lookup_alistSet (l : List (ℕ × ℚ)) (k k' : ℕ) (v : ℚ) :
    List.lookup k' (alistSet l k v) = if k' = k then some v else List.lookup k' l := by
  unfold alistSet
  by_cases hk : k' = k
  · subst hk; simp [List.lookup]
  · have : (k' == k) = false := beq_eq_false_iff_ne.mpr hk
    simp [List.lookup, this, lookup_filter_ne l k k' hk, hk]

theorem lookup_some_mem_keys {l : List (ℕ × ℚ)} {k : ℕ} {v : ℚ}
    (h : List.lookup k l = some v) : k ∈ l.map Prod.fst := by
  induction l with
  | nil => simp [List.lookup] at h
  | cons a t ih =>
    cases a with
    | mk a1 a2 =>
      by_cases hk : k = a1
      · subst hk; simp
      · have hne : (k == a1) = false := beq_eq_false_iff_ne.mpr hk
        have h' : List.lookup k t = some v := by simpa [List.lookup, hne] using h
        simpa using Or.inr (ih h')

theorem lookup_foldl_setnow (now : ℚ) :
    ∀ (escs : List ℕ) (m : List (ℕ × ℚ)) (esc : ℕ),
    (esc ∈ escs ∨ List.lookup esc m = some now) →
    List.lookup esc (escs.foldl (fun acc e => alistSet acc e now) m) = some now := by
  intro escs
  induction escs with
  | nil =>
    intro m esc h
    rcases h with h | h
    · simp at h
    · simpa using h
  | cons e rest ih =>
    intro m esc h
    rw [List.foldl_cons]
    apply ih
    by_cases hee : esc = e
    · subst hee
      right
      rw [lookup_alistSet]
      simp
    · rcases h with h | h
      · rcases List.mem_cons.mp h with h' | h'
        · exact absurd h' hee
        · exact Or.inl h'
      · right
        rw [lookup_alistSet, if_neg hee]
        exact h

theorem lastSeen_mem_keys {motors telemetry : List (ℕ × ℚ)} {esc : ℕ} {ls : ℚ}
    (h : lastSeen motors telemetry esc = some ls) :
    esc ∈ (motors.map Prod.fst ++ telemetry.map Prod.fst).dedup := by
  apply List.mem_dedup.mpr
  unfold lastSeen at h
  cases h1 : List.lookup esc motors with
  | some v => exact List.mem_append_left _ (lookup_some_mem_keys h1)
  | none =>
    cases h2 : List.lookup esc telemetry with
    | some v => exact List.mem_append_right _ (lookup_some_mem_keys h2)
    | none => rw [h1, h2] at h; simp at h

theorem watchdogScan_cons_none {motors telemetry : List (ℕ × ℚ)} {e : ℕ}
    (now th cd : ℚ) (lastDisable : List (ℕ × ℚ)) (rest tripped : List ℕ)
    (h : lastSeen motors telemetry e = none) :
    watchdogScan now th cd motors telemetry lastDisable (e :: rest) tripped =
      watchdogScan now th cd motors telemetry lastDisable rest tripped := by
  simp [watchdogScan, h]

theorem watchdogScan_cons_fresh {motors telemetry : List (ℕ × ℚ)} {e : ℕ} {ls : ℚ}
    {now th : ℚ} (cd : ℚ) (lastDisable : List (ℕ × ℚ)) (rest tripped : List ℕ)
    (h : lastSeen motors telemetry e = some ls) (hage : now - ls < th) :
    watchdogScan now th cd motors telemetry lastDisable (e :: rest) tripped =
      watchdogScan now th cd motors telemetry lastDisable rest (tripped.erase e) := by
  simp [watchdogScan, h, hage]

theorem watchdogScan_cons_stale {motors telemetry : List (ℕ × ℚ)} {e : ℕ} {ls : ℚ}
    {now th : ℚ} (cd : ℚ) (lastDisable : List (ℕ × ℚ)) (rest tripped : List ℕ)
    (h : lastSeen motors telemetry e = some ls) (hage : ¬(now - ls < th)) :
    watchdogScan now th cd motors telemetry lastDisable (e :: rest) tripped =
      ((watchdogScan now th cd motors telemetry lastDisable rest
          (if e ∈ tripped then tripped else tripped ++ [e])).1,
        if cooldownClear now cd lastDisable e then
          (e, now - ls) :: (watchdogScan now th cd motors telemetry lastDisable rest
            (if e ∈ tripped then tripped else tripped ++ [e])).2
        else (watchdogScan now th cd motors telemetry lastDisable rest
          (if e ∈ tripped then tripped else tripped ++ [e])).2) := by
  simp only [watchdogScan, h, hage, if_false]

theorem scan_stale_fst_mem (now th cd : ℚ) (motors telemetry lastDisable : List (ℕ × ℚ)) :
    ∀ (escs : List ℕ) (tripped : List ℕ) (q : ℕ × ℚ),
    q ∈ (watchdogScan now th cd motors telemetry lastDisable escs tripped).2 → q.1 ∈ escs := by
  intro escs
  induction escs with
  | nil => intro tripped q hq; simp [watchdogScan] at hq
  | cons e rest ih =>
    intro tripped q hq
    cases hls : lastSeen motors telemetry e with
    | none =>
      rw [watchdogScan_cons_none now th cd lastDisable rest tripped hls] at hq
      exact List.mem_cons_of_mem _ (ih _ _ hq)
    | some ls =>
      by_cases hage : now - ls < th
      · rw [watchdogScan_cons_fresh cd lastDisable rest tripped hls hage] at hq
        exact List.mem_cons_of_mem _ (ih _ _ hq)
      · rw [watchdogScan_cons_stale cd lastDisable rest tripped hls hage] at hq
        by_cases hclear : cooldownClear now cd lastDisable e = true
        · rw [if_pos hclear] at hq
          rcases List.mem_cons.mp hq with h | h
          · rw [h]; exact List.mem_cons_self _ _
          · exact List.mem_cons_of_mem _ (ih _ _ h)
        · rw [if_neg hclear] at hq
          exact List.mem_cons_of_mem _ (ih _ _ hq)

theorem scan_tripped_mono (now th cd : ℚ) (motors telemetry lastDisable : List (ℕ × ℚ)) :
    ∀ (escs : List ℕ) (tripped : List ℕ) (esc : ℕ),
    esc ∈ tripped → esc ∉ escs →
    esc ∈ (watchdogScan now th cd motors telemetry lastDisable escs tripped).1 := by
  intro escs
  induction escs with
  | nil => intro tripped esc hmem _; simpa [watchdogScan] using hmem
  | cons e rest ih =>
    intro tripped esc hmem hnot
    have hne : esc ≠ e := fun h => hnot (h ▸ List.mem_cons_self _ _)
    have hnr : esc ∉ rest := fun h => hnot (List.mem_cons_of_mem _ h)
    cases hls : lastSeen motors telemetry e with
    | none =>
      rw [watchdogScan_cons_none now th cd lastDisable rest tripped hls]
      exact ih _ _ hmem hnr
    | some ls =>
      by_cases hage : now - ls < th
      · rw [watchdogScan_cons_fresh cd lastDisable rest tripped hls hage]
        exact ih _ _ ((List.mem_erase_of_ne hne).mpr hmem) hnr
      · rw [watchdogScan_cons_stale cd lastDisable rest tripped hls hage]
        apply ih
        · by_cases he : e ∈ tripped
          · rwa [if_pos he]
          · rw [if_neg he]
            exact List.mem_append_left _ hmem
        · exact hnr

/-- What the first watchdog loop guarantees for a stale motor: it is in the
new tripped set, and it is on the `stale` list (with its age) exactly when
the cooldown check passes. -/
theorem scan_spec (now th cd : ℚ) (motors telemetry lastDisable : List (ℕ × ℚ)) :
    ∀ (escs : List ℕ) (tripped : List ℕ) (esc : ℕ) (ls : ℚ),
    escs.Nodup → esc ∈ escs →
    lastSeen motors telemetry esc = some ls → ¬(now - ls < th) →
    esc ∈ (watchdogScan now th cd motors telemetry lastDisable escs tripped).1 ∧
    ((esc, now - ls) ∈ (watchdogScan now th cd motors telemetry lastDisable escs tripped).2 ↔
      cooldownClear now cd lastDisable esc = true) ∧
    (∀ q ∈ (watchdogScan now th cd motors telemetry lastDisable escs tripped).2,
      q.1 = esc → q = (esc, now - ls)) := by
  intro escs
  induction escs with
  | nil => intro tripped esc ls _ hmem; simp at hmem
  | cons e rest ih =>
    intro tripped esc ls hnd hmem hls hstale
    obtain ⟨hne, hndr⟩ := List.nodup_cons.mp hnd
    by_cases heq : esc = e
    · subst heq
      rw [watchdogScan_cons_stale cd lastDisable rest tripped hls hstale]
      have htr : esc ∈ (if esc ∈ tripped then tripped else tripped ++ [esc]) := by
        by_cases he : esc ∈ tripped
        · rwa [if_pos he]
        · rw [if_neg he]
          exact List.mem_append_right _ (List.mem_singleton.mpr rfl)
      refine ⟨scan_tripped_mono now th cd motors telemetry lastDisable rest _ esc htr hne,
        ?_, ?_⟩
      · by_cases hclear : cooldownClear now cd lastDisable esc = true
        · rw [if_pos hclear]
          simp [hclear]
        · rw [if_neg hclear]
          constructor
          · intro hq
            exact absurd (scan_stale_fst_mem now th cd motors telemetry lastDisable
              rest _ _ hq) hne
          · intro h; exact absurd h hclear
      · intro q hq hq1
        by_cases hclear : cooldownClear now cd lastDisable esc = true
        · rw [if_pos hclear] at hq
          rcases List.mem_cons.mp hq with h | h
          · exact h
          · exact absurd (hq1 ▸ scan_stale_fst_mem now th cd motors telemetry lastDisable
              rest _ _ h) hne
        · rw [if_neg hclear] at hq
          exact absurd (hq1 ▸ scan_stale_fst_mem now th cd motors telemetry lastDisable
            rest _ _ hq) hne
    · have hmem' : esc ∈ rest := by
        rcases List.mem_cons.mp hmem with h | h
        · exact absurd h heq
        · exact h
      cases hlsE : lastSeen motors telemetry e with
      | none =>
        rw [watchdogScan_cons_none now th cd lastDisable rest tripped hlsE]
        exact ih _ esc ls hndr hmem' hls hstale
      | some lse =>
        by_cases hage : now - lse < th
        · rw [watchdogScan_cons_fresh cd lastDisable rest tripped hlsE hage]
          exact ih _ esc ls hndr hmem' hls hstale
        · rw [watchdogScan_cons_stale cd lastDisable rest tripped hlsE hage]
          obtain ⟨ih1, ih2, ih3⟩ := ih
            (if e ∈ tripped then tripped else tripped ++ [e]) esc ls hndr hmem' hls hstale
          refine ⟨ih1, ?_, ?_⟩
          · by_cases hce : cooldownClear now cd lastDisable e = true
            · rw [if_pos hce, List.mem_cons]
              constructor
              · rintro (h | h)
                · exact absurd (congrArg Prod.fst h) heq
                · exact ih2.mp h
              · intro h
                exact Or.inr (ih2.mpr h)
            · rw [if_neg hce]
              exact ih2
          · intro q hq hq1
            by_cases hce : cooldownClear now cd lastDisable e = true
            · rw [if_pos hce] at hq
              rcases List.mem_cons.mp hq with h | h
              · exact absurd (hq1.symm.trans (congrArg Prod.fst h)) heq
              · exact ih3 q h hq1
            · rw [if_neg hce] at hq
              exact ih3 q hq hq1

theorem cooldownClear_iff (now cd : ℚ) (ld : List (ℕ × ℚ)) (esc : ℕ) :
    cooldownClear now cd ld esc = true ↔
      (List.lookup esc ld = none ∨ ∃ t, List.lookup esc ld = some t ∧ cd ≤ now - t) := by
  unfold cooldownClear
  cases h : List.lookup esc ld with
  | none => simp
  | some t => simp [not_lt]

/-- One watchdog tick, seen from a single stale motor: it is attempted iff
its cooldown check passes, it is marked tripped, an attempt records
`last_disable = now` (whether or not the send failed), the failure list is
the attempts that failed, and the motor/telemetry dicts are untouched. -/
theorem watchdog_check_attempt_iff (now th cd : ℚ) (st : WState) (sendFails : ℕ → Bool)
    (esc : ℕ) (ls : ℚ)
    (hls : lastSeen st.motors st.telemetry esc = some ls) (hth : th ≤ now - ls) :
    (esc ∈ (watchdog_check now th cd st sendFails).2.1 ↔
      cooldownClear now cd st.lastDisable esc = true) ∧
    esc ∈ (watchdog_check now th cd st sendFails).1.tripped ∧
    (esc ∈ (watchdog_check now th cd st sendFails).2.1 →
      List.lookup esc (watchdog_check now th cd st sendFails).1.lastDisable = some now) ∧
    (watchdog_check now th cd st sendFails).2.2 =
      ((watchdog_check now th cd st sendFails).2.1).filter sendFails ∧
    (watchdog_check now th cd st sendFails).1.motors = st.motors ∧
    (watchdog_check now th cd st sendFails).1.telemetry = st.telemetry := by
  have hndd := List.nodup_dedup (st.motors.map Prod.fst ++ st.telemetry.map Prod.fst)
  have hmemd := lastSeen_mem_keys hls
  have hstale : ¬(now - ls < th) := not_lt.mpr hth
  obtain ⟨h1, h2, h3⟩ := scan_spec now th cd st.motors st.telemetry st.lastDisable
    ((st.motors.map Prod.fst ++ st.telemetry.map Prod.fst).dedup) st.tripped esc ls
    hndd hmemd hls hstale
  simp only [watchdog_check]
  refine ⟨?_, h1, ?_, by trivial, by trivial, by trivial⟩
  · constructor
    · intro h
      obtain ⟨q, hq, hfst⟩ := List.mem_map.mp h
      exact h2.mp ((h3 q hq hfst) ▸ hq)
    · intro h
      exact List.mem_map.mpr ⟨(esc, now - ls), h2.mpr h, rfl⟩
  · intro h
    exact lookup_foldl_setnow now _ st.lastDisable esc (Or.inl h)

/-- C3: on a watchdog tick, a motor whose telemetry age reaches the
threshold is marked tripped; a disable is sent iff no prior disable is
recorded or the cooldown has elapsed, and a sent disable records
`last_disable = now`; a suppressed send leaves the motor tripped.  The two
spec scenarios (threshold 0.1 s, cooldown 1.0 s): a motor last seen 1.0 s
ago gets exactly one disable and is tripped; the same motor with a disable
0.2 s ago and age 10 s gets no new disable and stays tripped. -/
theorem watchdog_trip_and_cooldown :
    (∀ (now th cd : ℚ) (st : WState) (sendFails : ℕ → Bool) (esc : ℕ) (ls : ℚ),
      (∀ e, sendFails e = false) →
      lastSeen st.motors st.telemetry esc = some ls →
      th ≤ now - ls →
      esc ∈ (watchdog_check now th cd st sendFails).1.tripped ∧
      (esc ∈ (watchdog_check now th cd st sendFails).2.1 ↔
        (List.lookup esc st.lastDisable = none ∨
          ∃ ld, List.lookup esc st.lastDisable = some ld ∧ cd ≤ now - ld)) ∧
      (watchdog_check now th cd st sendFails).2.2 = [] ∧
      (esc ∈ (watchdog_check now th cd st sendFails).2.1 →
        List.lookup esc (watchdog_check now th cd st sendFails).1.lastDisable = some now)) ∧
    watchdog_check 1 (1/10) 1 ⟨[(1, 0)], [], [], []⟩ (fun _ => false) =
      (⟨[(1, 0)], [], [1], [(1, 1)]⟩, [1], []) ∧
    watchdog_check 10 (1/10) 1 ⟨[(2, 0)], [], [2], [(2, 49/5)]⟩ (fun _ => false) =
      (⟨[(2, 0)], [], [2], [(2, 49/5)]⟩, [], []) := by
  refine ⟨?_, ?_, ?_⟩
  case refine_2 =>
    norm_num [watchdog_check, watchdogScan, lastSeen, cooldownClear,
      alistSet, List.lookup, List.dedup_nil, List.dedup_cons_of_not_mem,
      List.dedup_cons_of_mem]
  case refine_3 =>
    norm_num [watchdog_check, watchdogScan, lastSeen, cooldownClear,
      alistSet, List.lookup, List.dedup_nil, List.dedup_cons_of_not_mem,
      List.dedup_cons_of_mem]
  intro now th cd st sendFails esc ls hfails hls hth
  obtain ⟨hiff, htripped, hrec, hfail, _, _⟩ :=
    watchdog_check_attempt_iff now th cd st sendFails esc ls hls hth
  refine ⟨htripped, hiff.trans (cooldownClear_iff now cd st.lastDisable esc), ?_, hrec⟩
  rw [hfail]
  apply List.filter_eq_nil_iff.mpr
  intro a _
  simp [hfails a]

/-- Witness for C3: the first spec scenario derived from the general part
of the theorem. -/
theorem watchdog_trip_and_cooldown_witness :
    1 ∈ (watchdog_check 1 (1/10) 1 ⟨[(1, 0)], [], [], []⟩ (fun _ => false)).1.tripped ∧
    1 ∈ (watchdog_check 1 (1/10) 1 ⟨[(1, 0)], [], [], []⟩ (fun _ => false)).2.1 :=
  have h := watchdog_trip_and_cooldown.1 1 (1/10) 1 ⟨[(1, 0)], [], [], []⟩
    (fun _ => false) 1 0 (fun _ => rfl) rfl (by norm_num)
  ⟨h.1, h.2.1.mpr (Or.inl rfl)⟩

/-- C5 counterexample: with threshold 0.1 s and cooldown 1.0 s, a motor
(esc 5, last seen at 0) whose disable send fails at `now = 1` is attempted
and the failure logged — but `last_disable` is still set to `now`, so at
`now = 1.5`, when the motor is still stale (age 1.5 ≥ 0.1), no new disable
is attempted: a failed send does start the cooldown suppression,
contradicting the claim that the motor is retried on the next stale tick. -/
theorem watchdog_failed_send_not_retried :
    (watchdog_check 1 (1/10) 1 ⟨[(5, 0)], [], [], []⟩ (fun e => e == 5)).2.1 = [5] ∧
    (watchdog_check 1 (1/10) 1 ⟨[(5, 0)], [], [], []⟩ (fun e => e == 5)).2.2 = [5] ∧
    (watchdog_check 1 (1/10) 1 ⟨[(5, 0)], [], [], []⟩
      (fun e => e == 5)).1.lastDisable = [(5, 1)] ∧
    (watchdog_check (3/2) (1/10) 1
      (watchdog_check 1 (1/10) 1 ⟨[(5, 0)], [], [], []⟩ (fun e => e == 5)).1
      (fun e => e == 5)).2.1 = [] := by
  refine ⟨?_, ?_, ?_, ?_⟩ <;>
    norm_num [watchdog_check, watchdogScan, lastSeen, cooldownClear,
      alistSet, List.lookup, List.dedup_nil, List.dedup_cons_of_not_mem,
      List.dedup_cons_of_mem]

/-- C5 (amended): a failed disable attempt is logged and does not stop the
watchdog from attempting every other stale motor on the same tick — but the
source records `last_disable = now` even on failure, so the motor is not
retried while `now₂ - now < cooldown`; it is retried on the first tick at
which the cooldown has elapsed and it is still stale. -/
theorem watchdog_failure_logged_cooldown_started :
    (∀ (now th cd : ℚ) (st : WState) (sendFails : ℕ → Bool) (esc : ℕ) (ls : ℚ),
      lastSeen st.motors st.telemetry esc = some ls →
      th ≤ now - ls →
      (List.lookup esc st.lastDisable = none ∨
        ∃ ld, List.lookup esc st.lastDisable = some ld ∧ cd ≤ now - ld) →
      esc ∈ (watchdog_check now th cd st sendFails).2.1 ∧
      (sendFails esc = true → esc ∈ (watchdog_check now th cd st sendFails).2.2) ∧
      List.lookup esc (watchdog_check now th cd st sendFails).1.lastDisable = some now) ∧
    (∀ (now now₂ th cd : ℚ) (st : WState) (sendFails : ℕ → Bool) (esc : ℕ) (ls : ℚ),
      lastSeen st.motors st.telemetry esc = some ls →
      th ≤ now - ls → th ≤ now₂ - ls →
      (List.lookup esc st.lastDisable = none ∨
        ∃ ld, List.lookup esc st.lastDisable = some ld ∧ cd ≤ now - ld) →
      (now₂ - now < cd →
        esc ∉ (watchdog_check now₂ th cd
          (watchdog_check now th cd st sendFails).1 sendFails).2.1) ∧
      (cd ≤ now₂ - now →
        esc ∈ (watchdog_check now₂ th cd
          (watchdog_check now th cd st sendFails).1 sendFails).2.1)) := by
  have main : ∀ (now th cd : ℚ) (st : WState) (sendFails : ℕ → Bool) (esc : ℕ) (ls : ℚ),
      lastSeen st.motors st.telemetry esc = some ls →
      th ≤ now - ls →
      (List.lookup esc st.lastDisable = none ∨
        ∃ ld, List.lookup esc st.lastDisable = some ld ∧ cd ≤ now - ld) →
      esc ∈ (watchdog_check now th cd st sendFails).2.1 ∧
      (sendFails esc = true → esc ∈ (watchdog_check now th cd st sendFails).2.2) ∧
      List.lookup esc (watchdog_check now th cd st sendFails).1.lastDisable = some now := by
    intro now th cd st sendFails esc ls hls hth hclear
    obtain ⟨hiff, _, hrec, hfail, _, _⟩ :=
      watchdog_check_attempt_iff now th cd st sendFails esc ls hls hth
    have hmem : esc ∈ (watchdog_check now th cd st sendFails).2.1 :=
      hiff.mpr ((cooldownClear_iff now cd st.lastDisable esc).mpr hclear)
    refine ⟨hmem, ?_, hrec hmem⟩
    intro hf
    rw [hfail]
    exact List.mem_filter.mpr ⟨hmem, hf⟩
  refine ⟨main, ?_⟩
  intro now now₂ th cd st sendFails esc ls hls hth hth2 hclear
  obtain ⟨_, _, hrec⟩ := main now th cd st sendFails esc ls hls hth hclear
  obtain ⟨_, _, _, _, hm, hltel⟩ :=
    watchdog_check_attempt_iff now th cd st sendFails esc ls hls hth
  have hls2 : lastSeen (watchdog_check now th cd st sendFails).1.motors
      (watchdog_check now th cd st sendFails).1.telemetry esc = some ls := by
    rw [hm, hltel]; exact hls
  obtain ⟨hiff2, _, _, _, _, _⟩ :=
    watchdog_check_attempt_iff now₂ th cd (watchdog_check now th cd st sendFails).1
      sendFails esc ls hls2 hth2
  have hcool : cooldownClear now₂ cd
      (watchdog_check now th cd st sendFails).1.lastDisable esc = !(now₂ - now < cd) := by
    unfold cooldownClear
    rw [hrec]
  constructor
  · intro hlt hmem2
    have := hiff2.mp hmem2
    rw [hcool] at this
    simp [hlt] at this
  · intro hge
    apply hiff2.mpr
    rw [hcool]
    simp [not_lt.mpr hge]

/-- Witness for C5's amended theorem: the failing-send scenario at
concrete inputs. -/
theorem watchdog_failure_logged_cooldown_started_witness :
    5 ∈ (watchdog_check 1 (1/10) 1 ⟨[(5, 0)], [], [], []⟩ (fun e => e == 5)).2.1 ∧
    5 ∈ (watchdog_check 1 (1/10) 1 ⟨[(5, 0)], [], [], []⟩ (fun e => e == 5)).2.2 ∧
    List.lookup 5 (watchdog_check 1 (1/10) 1 ⟨[(5, 0)], [], [], []⟩
      (fun e => e == 5)).1.lastDisable = some 1 :=
  have h := watchdog_failure_logged_cooldown_started.1 1 (1/10) 1
    ⟨[(5, 0)], [], [], []⟩ (fun e => e == 5) 5 0 rfl (by norm_num)
    (Or.inl rfl)
  ⟨h.1, h.2.1 rfl, h.2.2⟩

/- ### Helper lemmas: choreography start-up -/

theorem sineOrchestraTasks_ok (fails : ℕ → Bool) :
    ∀ escs : List ℕ, (∀ x ∈ escs, fails x = false) →
    sineOrchestraTasks escs fails = (escs.map (fun esc => 0x200 + esc), none) := by
  intro escs
  induction escs with
  | nil => intro _; rfl
  | cons e rest ih =>
    intro h
    rw [sineOrchestraTasks, if_neg (by simp [h e (List.mem_cons_self _ _)]),
      ih (fun x hx => h x (List.mem_cons_of_mem _ hx))]
    simp

theorem sineOrchestraTasks_err (fails : ℕ → Bool) :
    ∀ (pre : List ℕ) (e : ℕ) (post : List ℕ),
    (∀ x ∈ pre, fails x = false) → fails e = true →
    sineOrchestraTasks (pre ++ e :: post) fails =
      (pre.map (fun esc => 0x200 + esc), some "Failed to start periodic task") := by
  intro pre
  induction pre with
  | nil =>
    intro e post _ hf
    rw [List.nil_append, sineOrchestraTasks, if_pos hf]
    rfl
  | cons p rest ih =>
    intro e post hpre hf
    rw [List.cons_append, sineOrchestraTasks,
      if_neg (by simp [hpre p (List.mem_cons_self _ _)]),
      ih e post (fun x hx => hpre x (List.mem_cons_of_mem _ hx)) hf]
    simp

/-- C4 counterexample: starting the demo on motors `[1, 2]` where the
second `send_periodic` call fails leaves the periodic task created for
motor 1 (arbitration id `0x201`) running: no stop call is issued before
control returns, and `_start_demo` merely logs the failure — no timed-loop
fallback path exists.  This refutes the claimed full rollback and
fallback. -/
theorem demo_start_failure_leaves_handles_running :
    sine_orchestra [1, 2] (fun e => e == 2) =
      ([0x201], [], .error "Failed to start periodic task") ∧
    start_demo [1, 2] (fun e => e == 2) = ([0x201], [], false, false) := by
  constructor <;> rfl

/-- C4 (amended): when a `send_periodic` call fails during `sine_orchestra`
start-up, the error propagates with the tasks created for the preceding
motors still running — none of them is stopped before control returns —
and `_start_demo` catches the error, logs it and aborts: no demo becomes
active and no fallback resend loop is started.  When no call fails, all
motors' tasks are created. -/
theorem sine_orchestra_failure_no_rollback :
    (∀ (pre : List ℕ) (e : ℕ) (post : List ℕ) (fails : ℕ → Bool),
      (∀ x ∈ pre, fails x = false) → fails e = true →
      sine_orchestra (pre ++ e :: post) fails =
        (pre.map (fun esc => 0x200 + esc), [], .error "Failed to start periodic task") ∧
      start_demo (pre ++ e :: post) fails =
        (pre.map (fun esc => 0x200 + esc), [], false, false)) ∧
    (∀ (escs : List ℕ) (fails : ℕ → Bool),
      escs ≠ [] → (∀ x ∈ escs, fails x = false) →
      sine_orchestra escs fails =
        (escs.map (fun esc => 0x200 + esc), [],
          .ok (escs.map (fun esc => 0x200 + esc)))) := by
  constructor
  · intro pre e post fails hpre hf
    have hne : (pre ++ e :: post).isEmpty = false := by
      cases pre <;> simp
    have hfail :
        sine_orchestra (pre ++ e :: post) fails =
          (pre.map (fun esc => 0x200 + esc), [], .error "Failed to start periodic task") := by
      rw [sine_orchestra, if_neg (by simp [hne]), sineOrchestraTasks_err fails pre e post hpre hf]
    refine ⟨hfail, ?_⟩
    rw [start_demo, hfail]
  · intro escs fails hne hok
    have hemp : escs.isEmpty = false := by
      cases escs
      · exact absurd rfl hne
      · simp
    rw [sine_orchestra, if_neg (by simp [hemp]), sineOrchestraTasks_ok fails escs hok]

/-- Witness for C4's amended theorem at a concrete failing start. -/
theorem sine_orchestra_failure_no_rollback_witness :
    sine_orchestra [3, 4, 5] (fun e => e == 4) =
      ([0x203], [], .error "Failed to start periodic task") ∧
    start_demo [3, 4, 5] (fun e => e == 4) = ([0x203], [], false, false) :=
  sine_orchestra_failure_no_rollback.1 [3] 4 [5] (fun e => e == 4)
    (by decide) (by decide)

/- ### C6: non-finite inputs -/

/-- C6 counterexample: `frame_speed` performs no finiteness check —
`struct.pack("<f", nan)` encodes the IEEE-754 NaN bit pattern and returns
normally, so the velocity-frame encoder succeeds on a non-finite setpoint
instead of failing deterministically as claimed. -/
theorem frame_speed_nonfinite_succeeds :
    frame_speed 1 .nan = .ok (0x201, [0x00, 0x00, 0xC0, 0x7F, 0, 0, 0, 0]) ∧
    (frame_speed 1 .nan).isOk = true := ⟨rfl, rfl⟩

/-- C6 (amended): the MIT fixed-point conversion `_float_to_uint` fails
deterministically on every non-finite input and succeeds (total clamping)
on every finite input whenever its limits check passes; `frame_speed`,
however, has no finiteness check: it succeeds on NaN and both infinities,
silently encoding their IEEE-754 bit patterns. -/
theorem nonfinite_conversion_behavior :
    (∀ (value : PFloat) (minimum maximum : ℚ) (bits : ℕ),
      minimum < maximum → value.isfinite = false →
      float_to_uint value minimum maximum bits = .error "value must be finite") ∧
    (∀ (v minimum maximum : ℚ) (bits : ℕ), minimum < maximum →
      ∃ u, float_to_uint (.finite v) minimum maximum bits = .ok u) ∧
    (∀ esc : ℕ,
      frame_speed esc .nan = .ok (0x200 + esc, [0x00, 0x00, 0xC0, 0x7F, 0, 0, 0, 0]) ∧
      frame_speed esc .inf = .ok (0x200 + esc, [0x00, 0x00, 0x80, 0x7F, 0, 0, 0, 0]) ∧
      frame_speed esc .ninf = .ok (0x200 + esc, [0x00, 0x00, 0x80, 0xFF, 0, 0, 0, 0])) := by
  refine ⟨?_, ?_, fun esc => ⟨rfl, rfl, rfl⟩⟩
  · intro value minimum maximum bits h hfin
    cases value with
    | finite q => simp [PFloat.isfinite] at hfin
    | nan => simp [float_to_uint, h.not_le]
    | inf => simp [float_to_uint, h.not_le]
    | ninf => simp [float_to_uint, h.not_le]
  · intro v minimum maximum bits h
    obtain ⟨u, hu, _⟩ := float_to_uint_finite_total h v bits
    exact ⟨u, hu⟩

/-- Witness for C6's amended theorem. -/
theorem nonfinite_conversion_behavior_witness :
    float_to_uint .nan 0 10 12 = .error "value must be finite" ∧
    ∃ u, float_to_uint (.finite 5) 0 10 12 = .ok u :=
  ⟨nonfinite_conversion_behavior.1 .nan 0 10 12 (by norm_num) rfl,
    nonfinite_conversion_behavior.2.1 5 0 10 12 (by norm_num)⟩

/- ### Helper lemmas: active probe -/

theorem frame_speed_zero_ok (esc : ℕ) :
    frame_speed esc (.finite 0) = .ok (0x200 + esc, [0, 0, 0, 0, 0, 0, 0, 0]) := rfl

theorem probeZeroFrame_eq (esc : ℕ) :
    probeZeroFrame esc = (0x200 + esc, [0, 0, 0, 0, 0, 0, 0, 0]) := rfl

theorem probeListen_no_sends (esc : ℕ) :
    ∀ (fuel : ℕ) (queue : List Msg),
    (probeListen esc fuel queue).1.filterMap ProbeEvent.sendOf = [] := by
  intro fuel
  induction fuel with
  | zero => intro queue; rfl
  | succ n ih =>
    intro queue
    cases queue with
    | nil => rfl
    | cons m rest =>
      simp only [probeListen]
      cases hdec : decode_feedback m.data with
      | error e => simp [ProbeEvent.sendOf, ih rest]
      | ok fb =>
        by_cases hid : fb.esc_id = esc
        · simp [hid, ProbeEvent.sendOf]
        · simp [hid, ProbeEvent.sendOf, ih rest]

theorem probeDrain_no_sends :
    ∀ (fuel : ℕ) (queue : List Msg),
    (probeDrain fuel queue).filterMap ProbeEvent.sendOf = [] := by
  intro fuel
  induction fuel with
  | zero => intro queue; rfl
  | succ n ih =>
    intro queue
    cases queue with
    | nil => rfl
    | cons m rest =>
      simp only [probeDrain]
      cases hdec : decode_feedback m.data with
      | error e => simp [ProbeEvent.sendOf, ih rest]
      | ok fb => simp [ProbeEvent.sendOf, ih rest]

theorem probeCandidates_sends (fuel : ℕ) :
    ∀ (candidates : List ℕ) (queue : List Msg),
    (probeCandidates fuel candidates queue).1.filterMap ProbeEvent.sendOf =
      candidates.flatMap (fun c => [(c, DISABLE_FRAME), (0x200 + c, [0, 0, 0, 0, 0, 0, 0, 0])]) := by
  intro candidates
  induction candidates with
  | nil => intro queue; rfl
  | cons c rest ih =>
    intro queue
    simp only [probeCandidates, probeZeroFrame_eq, frame_disable]
    simp [ProbeEvent.sendOf, List.filterMap_append, probeListen_no_sends, ih]

theorem probeListen_len (esc : ℕ) :
    ∀ (fuel : ℕ) (queue : List Msg), (probeListen esc fuel queue).1.length ≤ fuel := by
  intro fuel
  induction fuel with
  | zero => intro queue; simp [probeListen]
  | succ n ih =>
    intro queue
    cases queue with
    | nil => simp [probeListen]
    | cons m rest =>
      simp only [probeListen]
      cases hdec : decode_feedback m.data with
      | error e => simpa using Nat.succ_le_succ (ih rest)
      | ok fb =>
        by_cases hid : fb.esc_id = esc
        · simp [hid]
        · simp only [hid, if_neg]
          simpa [hid] using Nat.succ_le_succ (ih rest)

/-- C9 counterexample: candidates `[1, 2]`, a single buffered feedback
frame from esc 2.  During candidate 1's listen window that frame is
consumed and skipped (its esc id does not match) — before candidate 2's
disable+zero pair is sent.  So it is not the case that the pair is sent to
every candidate before any received frame is skipped. -/
theorem active_probe_skip_before_later_send :
    active_probe [1, 2] 1 1 [⟨0x12, [0x12, 0, 0, 0, 0, 0, 40, 41]⟩] =
      [.send 1 DISABLE_FRAME, .send 0x201 [0, 0, 0, 0, 0, 0, 0, 0],
       .skip ⟨0x12, [0x12, 0, 0, 0, 0, 0, 40, 41]⟩,
       .send 2 DISABLE_FRAME, .send 0x202 [0, 0, 0, 0, 0, 0, 0, 0]] ∧
    ¬ sendsPrecedeSkips (active_probe [1, 2] 1 1 [⟨0x12, [0x12, 0, 0, 0, 0, 0, 40, 41]⟩]) :=
  ⟨rfl, by decide⟩

/-- C9 (amended): `active_probe` sends to each candidate, in list order, a
disable frame followed by a zero-velocity frame (both motion-neutral), and
probing is strictly sequential with each candidate's listen window bounded
by its receive budget; but frames received during an earlier candidate's
window may be consumed and skipped before later candidates' pairs are
sent. -/
theorem active_probe_send_order :
    (∀ (candidates : List ℕ) (fuel drainFuel : ℕ) (queue : List Msg),
      (active_probe candidates fuel drainFuel queue).filterMap ProbeEvent.sendOf =
        candidates.flatMap
          (fun c => [(c, DISABLE_FRAME), (0x200 + c, [0, 0, 0, 0, 0, 0, 0, 0])])) ∧
    (∀ (esc fuel : ℕ) (queue : List Msg),
      (probeListen esc fuel queue).1.length ≤ fuel) := by
  constructor
  · intro candidates fuel drainFuel queue
    rw [active_probe]
    simp [List.filterMap_append, probeDrain_no_sends, probeCandidates_sends]
  · exact probeListen_len

end DmTui
